import Mathlib

/-!
A shallow embedding of the qmodular library (modular-arithmetic comparison
kernels) over `Nat`, with width-`w` unsigned arithmetic made explicit as
reduction modulo `2 ^ w`.  Each definition mirrors one function of the C++
source; theorems relate those definitions to the mathematical statements of
the specification.
-/

namespace QM

/-- `math::max<U>`: the largest number representable in width `w`. -/
def umax (w : Nat) : Nat := 2 ^ w - 1

/-- Truncating (width-`w` unsigned) multiplication. -/
def tmul (w a b : Nat) : Nat := a * b % 2 ^ w

/-- Truncating (width-`w` unsigned) addition. -/
def tadd (w a b : Nat) : Nat := (a + b) % 2 ^ w

/-- Width-`w` unsigned subtraction `a - b` (operands `< 2 ^ w`). -/
def tsub (w a b : Nat) : Nat := (a + (2 ^ w - b)) % 2 ^ w

/-- Width-`w` unsigned negation `-a` (operand `< 2 ^ w`). -/
def tneg (w a : Nat) : Nat := (2 ^ w - a) % 2 ^ w

/-- `math::rshift`: `n >> c`, returning `0` when `c ≥ w`. -/
def rshift (w n c : Nat) : Nat := if c < w then n / 2 ^ c else 0

/-- `math::lshift`: `n << c` (mod `2 ^ w`), returning `0` when `c ≥ w`. -/
def lshift (w n c : Nat) : Nat := if c < w then n * 2 ^ c % 2 ^ w else 0

/-- `math::rrotate`: rotate the `w` bits of `n` right by `c % w` positions. -/
def rrotate (w n c : Nat) : Nat :=
  let c' := c % w
  if c' = 0 then n else (n / 2 ^ c') ||| (n * 2 ^ (w - c') % 2 ^ w)

/-- `math::is_power_of_2`: `!!n & !(n & (n - 1))`. -/
def is_power_of_2 (n : Nat) : Bool := (n != 0) && ((n &&& (n - 1)) == 0)

/-- `math::even_part`: `n & -n`, the lowest set bit of `n`. -/
def even_part (w n : Nat) : Nat := n &&& tneg w n

/-- `math::odd_part`: `n / even_part n`. -/
def odd_part (w n : Nat) : Nat := n / even_part w n

/-- Fuel-driven floor of `log2` (the fuel bounds the recursion depth;
`n` itself is always enough fuel). -/
def log2aux : Nat → Nat → Nat
  | 0, _ => 0
  | f + 1, n => if n ≤ 1 then 0 else log2aux f (n / 2) + 1

/-- Floor of `log2 n` (`63 - __builtin_clzll n` for `0 < n`). -/
def flog2 (n : Nat) : Nat := log2aux n n

/-- `math::exp2`: `__builtin_ffsll(n) - 1`, the number of trailing zero bits
of `n` (defined for `n > 0`). -/
def exp2 (w n : Nat) : Nat := flog2 (even_part w n)

/-- `math::ceil_log2`: `n_bits<long long> - clzll(n) - is_power_of_2(n)`,
i.e. `⌈log2 n⌉` for `n > 0`. -/
def ceil_log2 (n : Nat) : Nat :=
  flog2 n + 1 - (if is_power_of_2 n then 1 else 0)

/-- `math::ceil_sup_divided_by`: `max<U> / d + 1` in width-`w` arithmetic. -/
def ceil_sup_divided_by (w d : Nat) : Nat := (umax w / d + 1) % 2 ^ w

/-- `math::floor_sup_divided_by`: `max<U> / d + is_power_of_2 d` in width-`w`
arithmetic. -/
def floor_sup_divided_by (w d : Nat) : Nat :=
  (umax w / d + (if is_power_of_2 d then 1 else 0)) % 2 ^ w

/-- `math::remainder_sup_divided_by`: `-(floor_sup_divided_by d * d)`. -/
def remainder_sup_divided_by (w d : Nat) : Nat :=
  tneg w (tmul w (floor_sup_divided_by w d) d)

/-- One Newton refinement step of `math::modular_inverse`:
`m * (2 - n * m)` in width-`w` arithmetic. -/
def minv_step (w n m : Nat) : Nat := tmul w m (tsub w (2 % 2 ^ w) (tmul w n m))

/-- `math::modular_inverse`: `m = 3 * n ^ 2` followed by four refinement
steps `m *= 2 - n * m`, all in width-`w` arithmetic. -/
def modular_inverse (w n : Nat) : Nat :=
  minv_step w n (minv_step w n (minv_step w n (minv_step w n
    ((3 * n % 2 ^ w) ^^^ (2 % 2 ^ w)))))

/-- `math::abs_diff`: `|n - m|`. -/
def abs_diff (n m : Nat) : Nat := if m ≤ n then n - m else m - n

/-! ## The built-in (oracle) algorithm, `built_in.hpp` -/

namespace built_in

/-- `built_in::...::has_remainder`: `n % d == r`. -/
def has_remainder (d n r : Nat) : Bool := decide (n % d = r)

/-- `built_in::...::has_remainder_less`: `n % d < r`. -/
def has_remainder_less (d n r : Nat) : Bool := decide (n % d < r)

/-- `built_in::...::has_remainder_less_equal`: `n % d <= r`. -/
def has_remainder_less_equal (d n r : Nat) : Bool := decide (n % d ≤ r)

/-- `built_in::...::has_remainder_greater`: `n % d > r`. -/
def has_remainder_greater (d n r : Nat) : Bool := decide (r < n % d)

/-- `built_in::...::has_remainder_greater_equal`: `n % d >= r`. -/
def has_remainder_greater_equal (d n r : Nat) : Bool := decide (r ≤ n % d)

/-- `built_in::...::are_equivalent`: `n % d == m % d`. -/
def are_equivalent (d n m : Nat) : Bool := decide (n % d = m % d)

end built_in

/-! ## Capability-composition layers, `adaptors.hpp`

Each adaptor is a transformer of the boolean primitives it requires. -/

namespace adaptors

/-- `adaptors::relax_equality::has_remainder`: `(r < divisor) & inner n r`. -/
def relax_eq (d : Nat) (inner : Nat → Nat → Bool) (n r : Nat) : Bool :=
  decide (r < d) && inner n r

/-- `adaptors::relax_inequality::has_remainder_less`:
`(r >= divisor) | inner n r`. -/
def relax_lt (d : Nat) (inner : Nat → Nat → Bool) (n r : Nat) : Bool :=
  decide (d ≤ r) || inner n r

/-- `adaptors::extra_comparison::has_remainder_less_equal`:
`less n (r + 1)` in width-`w` arithmetic. -/
def extra_le (w : Nat) (less : Nat → Nat → Bool) (n r : Nat) : Bool :=
  less n ((r + 1) % 2 ^ w)

/-- `adaptors::extra_comparison::has_remainder_greater`:
`!has_remainder_less_equal n r`. -/
def extra_gt (w : Nat) (less : Nat → Nat → Bool) (n r : Nat) : Bool :=
  ! extra_le w less n r

/-- `adaptors::extra_comparison::has_remainder_greater_equal`:
`!less n r`. -/
def extra_ge (less : Nat → Nat → Bool) (n r : Nat) : Bool := ! less n r

/-- `adaptors::equivalence::are_equivalent` (general runtime path):
`has_remainder (abs_diff n m) 0`. -/
def equiv (hr : Nat → Nat → Bool) (n m : Nat) : Bool := hr (abs_diff n m) 0

end adaptors

/-! ## Multiply-and-compare, `mcomp.hpp` -/

namespace mcomp

structure Divisor where
  value : Nat
  multiplier : Nat
  bound : Nat
  max_dividend : Nat
deriving DecidableEq, Repr

/-- `mcomp::impl::divisor::create`. -/
def create (w d : Nat) : Divisor :=
  if d = 1 then ⟨1, 0, 1, umax w⟩
  else
    let multiplier := ceil_sup_divided_by w d
    let extra := tmul w multiplier d
    let bound := if extra < multiplier then multiplier - extra else 0
    let max_dividend :=
      if extra = 0 then umax w
      else if extra < multiplier then ((bound - 1) / extra * d + d - 1) % 2 ^ w
      else 0
    ⟨d, multiplier, bound, max_dividend⟩

/-- `mcomp::impl::algo::has_remainder` (general runtime path):
`multiplier * (n - r) < bound`. -/
def has_remainder (w : Nat) (D : Divisor) (n r : Nat) : Bool :=
  decide (tmul w D.multiplier (tsub w n r) < D.bound)

/-- `mcomp::impl::algo::has_remainder_less`:
`multiplier * n < multiplier * r`. -/
def has_remainder_less (w : Nat) (D : Divisor) (n r : Nat) : Bool :=
  decide (tmul w D.multiplier n < tmul w D.multiplier r)

/-- The composed `mcomp::plain` stack:
`extra_comparison ∘ equivalence ∘ relax_inequality ∘ relax_equality ∘ algo`. -/
def plain_has_remainder (w d : Nat) : Nat → Nat → Bool :=
  adaptors.relax_eq d (has_remainder w (create w d))

def plain_has_remainder_less (w d : Nat) : Nat → Nat → Bool :=
  adaptors.relax_lt d (has_remainder_less w (create w d))

def plain_has_remainder_less_equal (w d : Nat) : Nat → Nat → Bool :=
  adaptors.extra_le w (plain_has_remainder_less w d)

def plain_has_remainder_greater (w d : Nat) : Nat → Nat → Bool :=
  adaptors.extra_gt w (plain_has_remainder_less w d)

def plain_has_remainder_greater_equal (w d : Nat) : Nat → Nat → Bool :=
  adaptors.extra_ge (plain_has_remainder_less w d)

def plain_are_equivalent (w d : Nat) : Nat → Nat → Bool :=
  adaptors.equiv (plain_has_remainder w d)

/-- `relax_equality::max_remainder` of the composed stack. -/
def plain_max_remainder (w d : Nat) : Nat := (create w d).max_dividend

end mcomp

/-! ## Multiply-and-shift, `mshift.hpp` -/

namespace mshift

structure Divisor where
  value : Nat
  multiplier : Nat
  shift : Nat
  max_dividend : Nat
deriving DecidableEq, Repr

/-- `mshift::impl::divisor::create`. -/
def create (w d : Nat) : Divisor :=
  let multiplier := ceil_sup_divided_by w d
  let p := ceil_log2 d
  let shift := w - p
  let max_dividend :=
    if p = w then 0
    else
      let a := umax w / (d - remainder_sup_divided_by w d)
      if a < d - 1 then 0
      else
        let b := if a = d - 1 then a else a - a % d - 1
        b / 2 ^ p
  ⟨d, multiplier, shift, max_dividend⟩

/-- `mshift::impl::algo::mapped_remainder`:
`rshift (multiplier * n) shift`. -/
def mapped_remainder (w : Nat) (D : Divisor) (n : Nat) : Nat :=
  rshift w (tmul w D.multiplier n) D.shift

/-- `mshift::impl::algo::mapped_remainder_bounded` (same expression,
precondition `n < divisor`). -/
def mapped_remainder_bounded (w : Nat) (D : Divisor) (n : Nat) : Nat :=
  mapped_remainder w D n

/-- `adaptors::basic_comparison::has_remainder` over the mshift kernel. -/
def bc_has_remainder (w d : Nat) (n r : Nat) : Bool :=
  decide (mapped_remainder w (create w d) n
    = mapped_remainder_bounded w (create w d) r)

/-- `adaptors::basic_comparison::has_remainder_less` over the mshift kernel. -/
def bc_has_remainder_less (w d : Nat) (n r : Nat) : Bool :=
  decide (mapped_remainder w (create w d) n
    < mapped_remainder_bounded w (create w d) r)

/-- `adaptors::basic_comparison::max_remainder` over the mshift kernel. -/
def bc_max_remainder (w d : Nat) : Nat := min (create w d).max_dividend (d - 1)

/-- The composed `mshift::plain` stack: `extra_comparison ∘ equivalence ∘
relax_inequality ∘ relax_equality ∘ basic_comparison ∘ algo`. -/
def plain_has_remainder (w d : Nat) : Nat → Nat → Bool :=
  adaptors.relax_eq d (bc_has_remainder w d)

def plain_has_remainder_less (w d : Nat) : Nat → Nat → Bool :=
  adaptors.relax_lt d (bc_has_remainder_less w d)

def plain_has_remainder_less_equal (w d : Nat) : Nat → Nat → Bool :=
  adaptors.extra_le w (plain_has_remainder_less w d)

def plain_has_remainder_greater (w d : Nat) : Nat → Nat → Bool :=
  adaptors.extra_gt w (plain_has_remainder_less w d)

def plain_has_remainder_greater_equal (w d : Nat) : Nat → Nat → Bool :=
  adaptors.extra_ge (plain_has_remainder_less w d)

def plain_are_equivalent (w d : Nat) : Nat → Nat → Bool :=
  adaptors.equiv (plain_has_remainder w d)

def plain_max_remainder (w d : Nat) : Nat := (create w d).max_dividend

end mshift

/-! ## Modular inverse, `minverse.hpp` -/

namespace minverse

structure Divisor where
  value : Nat
  multiplier : Nat
  rotation : Nat
  special_remainder : Nat
  quotient_sup : Nat
  remainder_sup : Nat
deriving DecidableEq, Repr

/-- `minverse::impl::divisor::create`. -/
def create (w d : Nat) : Divisor :=
  ⟨d, modular_inverse w (odd_part w d), exp2 w d,
    tneg w (odd_part w d) % d, floor_sup_divided_by w d,
    remainder_sup_divided_by w d⟩

/-- `minverse::impl::algo::equivalents_`: `quotient_sup + (r < remainder_sup)`
in width-`w` arithmetic. -/
def equivalents (w : Nat) (D : Divisor) (r : Nat) : Nat :=
  tadd w D.quotient_sup (if r < D.remainder_sup then 1 else 0)

/-- `minverse::impl::algo::has_remainder` (general runtime path):
`rrotate (multiplier * (n - r)) rotation <= equivalents_ r - 1`. -/
def has_remainder (w : Nat) (D : Divisor) (n r : Nat) : Bool :=
  decide (rrotate w (tmul w D.multiplier (tsub w n r)) D.rotation
    ≤ tsub w (equivalents w D r) 1)

/-- The composed `minverse::plain` stack:
`equivalence ∘ relax_equality ∘ algo`. -/
def plain_has_remainder (w d : Nat) : Nat → Nat → Bool :=
  adaptors.relax_eq d (has_remainder w (create w d))

def plain_are_equivalent (w d : Nat) : Nat → Nat → Bool :=
  adaptors.equiv (plain_has_remainder w d)

/-- `relax_equality::max_remainder` over the minverse kernel
(whose `max_dividend` is `max<U>`). -/
def plain_max_remainder (w d : Nat) : Nat := umax w

end minverse

/-! ## The hybrid "new algorithm", `new_algo.hpp` -/

namespace new_algo

/-- The period-search loop of `new_algo::impl::divisor::create`.  The fuel
encodes the loop guard `period <= max_period`: at entry of each iteration
`fuel = max_period + 1 - period`, so fuel `0` mirrors the guard failing and
the loop returning `0`. -/
def periodLoop (w odd : Nat) : Nat → Nat → Nat → Nat
  | 0, _, _ => 0
  | fuel + 1, period, power =>
    if power = 1 then period
    else
      let p := power * 2 % 2 ^ w
      periodLoop w odd fuel (period + 1) (if odd ≤ p then p - odd else p)

/-- Number of loop iterations `periodLoop` executes (an iteration is one
evaluation of the loop body). -/
def periodLoopIters (w odd : Nat) : Nat → Nat → Nat → Nat
  | 0, _, _ => 0
  | fuel + 1, _, power =>
    if power = 1 then 0
    else
      let p := power * 2 % 2 ^ w
      periodLoopIters w odd fuel 0 (if odd ≤ p then p - odd else p) + 1

/-- The period found by the search in `new_algo::impl::divisor::create`
(`0` when the loop exhausts `max_period = w - exp2 d`). -/
def findPeriod (w d : Nat) : Nat :=
  periodLoop w (odd_part w d) (w - exp2 w d) 1 (2 % 2 ^ w)

structure Divisor where
  value : Nat
  multiplier : Nat
  shift : Nat
  max_dividend : Nat
deriving DecidableEq, Repr

/-- `new_algo::impl::divisor::create`.  (In the `max_dividend` computation,
`uint_t(1) << n_ones` is modelled as `2 ^ n_ones % 2 ^ w`; when `n_ones = w`
the C++ shift is undefined but the value is multiplied by `n_points = 0`.) -/
def create (w d : Nat) : Divisor :=
  let max_period := w - exp2 w d
  let period := findPeriod w d
  if period = 0 then ⟨d, 0, 0, 0⟩
  else
    let n_ones := max_period / period * period
    let multiplier := (umax w * 2 ^ (w - n_ones) % 2 ^ w) / d
    let shift := w - n_ones
    let n_points := (multiplier - 1) / 2 ^ shift
    let max_dividend :=
      if 2 ^ shift ≤ n_points then umax w
      else
        let n1 := n_points * (2 ^ n_ones % 2 ^ w) % 2 ^ w
        if umax w / d < n1 then umax w
        else
          let n2 := n1 * d % 2 ^ w
          if tneg w d < n2 then umax w
          else n2 + d - 1
    ⟨d, multiplier, shift, max_dividend⟩

/-- `new_algo::impl::algo::fractional`: `(h << shift) + l` where `h`/`l` are
the high/low parts of the double-width product `multiplier * n`. -/
def fractional (w : Nat) (D : Divisor) (n : Nat) : Nat :=
  (D.multiplier * n % 2 ^ w + D.multiplier * n / 2 ^ w * 2 ^ D.shift) % 2 ^ w

/-- `new_algo::impl::algo::has_remainder_less`:
`fractional n + multiplier <= multiplier * r` in width-`w` arithmetic. -/
def has_remainder_less (w : Nat) (D : Divisor) (n r : Nat) : Bool :=
  decide (tadd w (fractional w D n) D.multiplier ≤ tmul w D.multiplier r)

/-- `new_algo::impl::algo::has_remainder` (general runtime path):
`(n >= r) & has_remainder_less (n - r) 1`. -/
def has_remainder (w : Nat) (D : Divisor) (n r : Nat) : Bool :=
  decide (r ≤ n) && has_remainder_less w D (tsub w n r) 1

/-- The composed `new_algo::plain` stack:
`extra_comparison ∘ equivalence ∘ relax_inequality ∘ relax_equality ∘ algo`. -/
def plain_has_remainder (w d : Nat) : Nat → Nat → Bool :=
  adaptors.relax_eq d (has_remainder w (create w d))

def plain_has_remainder_less (w d : Nat) : Nat → Nat → Bool :=
  adaptors.relax_lt d (has_remainder_less w (create w d))

def plain_has_remainder_less_equal (w d : Nat) : Nat → Nat → Bool :=
  adaptors.extra_le w (plain_has_remainder_less w d)

def plain_has_remainder_greater (w d : Nat) : Nat → Nat → Bool :=
  adaptors.extra_gt w (plain_has_remainder_less w d)

def plain_has_remainder_greater_equal (w d : Nat) : Nat → Nat → Bool :=
  adaptors.extra_ge (plain_has_remainder_less w d)

def plain_are_equivalent (w d : Nat) : Nat → Nat → Bool :=
  adaptors.equiv (plain_has_remainder w d)

def plain_max_remainder (w d : Nat) : Nat := (create w d).max_dividend

end new_algo

end QM

/-! ## Helper lemmas about the primitives -/

namespace QM

theorem log2aux_spec : ∀ fuel n, 0 < n → n ≤ fuel →
    2 ^ log2aux fuel n ≤ n ∧ n < 2 ^ (log2aux fuel n + 1) := by
  intro fuel
  induction fuel with
  | zero => intro n h1 h2; omega
  | succ f ih =>
    intro n h1 h2
    by_cases h : n ≤ 1
    · have hn : n = 1 := by omega
      subst hn
      simp [log2aux]
    · have hf : 0 < f := by omega
      have hrec := ih (n / 2) (by omega) (by omega)
      have hstep : log2aux (f + 1) n = log2aux f (n / 2) + 1 := by
        simp [log2aux, h]
      rw [hstep]
      set K := log2aux f (n / 2) with hK
      have e1 : 2 ^ (K + 1) = 2 * 2 ^ K := by rw [pow_succ]; ring
      have e2 : 2 ^ (K + 1 + 1) = 2 * 2 ^ (K + 1) := by rw [pow_succ]; ring
      obtain ⟨hl, hr⟩ := hrec
      constructor
      · omega
      · omega

theorem flog2_spec (n : Nat) (h : 0 < n) :
    2 ^ flog2 n ≤ n ∧ n < 2 ^ (flog2 n + 1) :=
  log2aux_spec n n h le_rfl

theorem testBit_of_div_eq_one {n c : Nat} (h : n / 2 ^ c = 1) :
    n.testBit c = true := by
  rw [Nat.testBit_to_div_mod]
  simp [h]

theorem is_power_of_2_iff {d : Nat} :
    is_power_of_2 d = true ↔ ∃ k, d = 2 ^ k := by
  constructor
  · intro h
    simp only [is_power_of_2, Bool.and_eq_true, beq_iff_eq, bne_iff_ne, ne_eq] at h
    obtain ⟨hne, hand⟩ := h
    have hd : 0 < d := Nat.pos_of_ne_zero hne
    refine ⟨flog2 d, ?_⟩
    obtain ⟨hle, hlt⟩ := flog2_spec d hd
    set c := flog2 d with hc
    by_contra hne2
    have hgt : 2 ^ c < d := lt_of_le_of_ne hle (fun e => hne2 e.symm)
    have hpow : 2 ^ (c + 1) = 2 ^ c * 2 := by rw [pow_succ]
    have h1 : d / 2 ^ c = 1 := by
      apply Nat.div_eq_of_lt_le <;> omega
    have h2 : (d - 1) / 2 ^ c = 1 := by
      apply Nat.div_eq_of_lt_le <;> omega
    have hb : ((d &&& (d - 1)).testBit c) = true := by
      rw [Nat.testBit_and, testBit_of_div_eq_one h1, testBit_of_div_eq_one h2]
      rfl
    rw [hand] at hb
    simp [Nat.zero_testBit] at hb
  · rintro ⟨k, rfl⟩
    have hand : 2 ^ k &&& (2 ^ k - 1) = 0 := by
      apply Nat.eq_of_testBit_eq
      intro i
      rw [Nat.testBit_and, Nat.testBit_two_pow, Nat.testBit_two_pow_sub_one,
        Nat.zero_testBit]
      by_cases hik : i < k
      · have : ¬ (k = i) := by omega
        simp [this]
      · simp [hik]
    simp [is_power_of_2, hand, Nat.two_pow_pos k |>.ne']

theorem sub_one_div_of_not_dvd {a d : Nat} (hd : 0 < d) (hnd : ¬ d ∣ a) :
    (a - 1) / d = a / d := by
  have hmod := Nat.div_add_mod a d
  have hr : 0 < a % d := by
    rcases Nat.eq_zero_or_pos (a % d) with h0 | h0
    · exact absurd (Nat.dvd_of_mod_eq_zero h0) hnd
    · exact h0
  have hrd : a % d < d := Nat.mod_lt _ hd
  calc (a - 1) / d = (d * (a / d) + a % d - 1) / d := by rw [hmod]
  _ = (d * (a / d) + (a % d - 1)) / d := by rw [Nat.add_sub_assoc hr]
  _ = a / d + (a % d - 1) / d := by rw [Nat.mul_add_div hd]
  _ = a / d := by
      have h0 : (a % d - 1) / d = 0 := Nat.div_eq_of_lt (by omega)
      rw [h0, Nat.add_zero]

theorem mul_sub_one_div {q b : Nat} (hb : 0 < b) (hq : 0 < q) :
    (q * b - 1) / b = q - 1 := by
  obtain ⟨q0, rfl⟩ : ∃ q0, q = q0 + 1 := ⟨q - 1, by omega⟩
  have h1 : (q0 + 1) * b = b * q0 + b := by ring
  rw [h1, Nat.add_sub_assoc hb, Nat.mul_add_div hb, Nat.div_eq_of_lt (by omega)]
  omega

theorem pow_dvd_pow_iff_pow2 {d w : Nat} (hd : 0 < d) :
    d ∣ 2 ^ w ↔ ∃ k, k ≤ w ∧ d = 2 ^ k := by
  constructor
  · intro h
    obtain ⟨k, hk, rfl⟩ := (Nat.dvd_prime_pow Nat.prime_two).mp h
    exact ⟨k, hk, rfl⟩
  · rintro ⟨k, hk, rfl⟩
    exact pow_dvd_pow 2 hk

end QM

namespace QM

theorem ceil_sup_eq (w d : Nat) (hd : 0 < d) :
    ceil_sup_divided_by w d = (2 ^ w + d - 1) / d % 2 ^ w := by
  unfold ceil_sup_divided_by umax
  congr 1
  have h1 : 2 ^ w + d - 1 = (2 ^ w - 1) + d := by
    have := Nat.two_pow_pos w; omega
  rw [h1, Nat.add_div_right _ hd]

theorem floor_sup_eq (w d : Nat) (hd : 0 < d) (hdw : d < 2 ^ w) :
    floor_sup_divided_by w d = 2 ^ w / d % 2 ^ w := by
  unfold floor_sup_divided_by umax
  congr 1
  by_cases hp : is_power_of_2 d = true
  · obtain ⟨k, rfl⟩ := is_power_of_2_iff.mp hp
    have hkw : k < w := (Nat.pow_lt_pow_iff_right (by norm_num)).mp hdw
    have hdvd : 2 ^ w = 2 ^ (w - k) * 2 ^ k := by
      rw [← pow_add]; congr 1; omega
    have hq : 2 ^ w / 2 ^ k = 2 ^ (w - k) := by
      rw [hdvd, Nat.mul_div_cancel _ (Nat.two_pow_pos k)]
    have hm : (2 ^ w - 1) / 2 ^ k = 2 ^ (w - k) - 1 := by
      rw [hdvd]
      exact mul_sub_one_div (Nat.two_pow_pos k) (Nat.two_pow_pos (w - k))
    rw [hp, hm, hq]
    have := Nat.two_pow_pos (w - k)
    simp
    omega
  · have hnd : ¬ d ∣ 2 ^ w := by
      intro hdvd
      obtain ⟨k, _, rfl⟩ := (pow_dvd_pow_iff_pow2 hd).mp hdvd
      exact hp (is_power_of_2_iff.mpr ⟨k, rfl⟩)
    have hp' : is_power_of_2 d = false := Bool.eq_false_iff.mpr hp
    rw [hp']
    simp only [Bool.false_eq_true, if_false, Nat.add_zero]
    rw [sub_one_div_of_not_dvd hd hnd]

theorem rem_sup_eq (w d : Nat) (hd : 0 < d) (hdw : d < 2 ^ w) :
    remainder_sup_divided_by w d = 2 ^ w % d := by
  have hq := Nat.div_add_mod (2 ^ w) d
  have hrd : 2 ^ w % d < d := Nat.mod_lt _ hd
  have hW := Nat.two_pow_pos w
  unfold remainder_sup_divided_by tneg tmul
  rw [floor_sup_eq w d hd hdw]
  have hmm : 2 ^ w / d % 2 ^ w * d % 2 ^ w = 2 ^ w / d * d % 2 ^ w := by
    conv_rhs => rw [Nat.mul_mod]
    conv_lhs => rw [Nat.mul_mod]
    rw [Nat.mod_mod_of_dvd _ dvd_rfl]
  rw [hmm]
  have hqd : 2 ^ w / d * d = 2 ^ w - 2 ^ w % d := by
    have h := Nat.div_add_mod (2 ^ w) d
    have hcomm : 2 ^ w / d * d = d * (2 ^ w / d) := Nat.mul_comm _ _
    omega
  rw [hqd]
  rcases Nat.eq_zero_or_pos (2 ^ w % d) with h0 | h0
  · rw [h0, Nat.sub_zero, Nat.mod_self, Nat.sub_zero, Nat.mod_self]
  · have h1 : (2 ^ w - 2 ^ w % d) % 2 ^ w = 2 ^ w - 2 ^ w % d :=
      Nat.mod_eq_of_lt (by omega)
    rw [h1]
    have h2 : 2 ^ w - (2 ^ w - 2 ^ w % d) = 2 ^ w % d := by omega
    rw [h2]
    exact Nat.mod_eq_of_lt (by omega)

/-- C2: for width `w` and `0 < d < 2 ^ w`, `ceil_sup_divided_by d` is
`⌈2^w / d⌉ mod 2^w`, `floor_sup_divided_by d` is `⌊2^w / d⌋ mod 2^w` (both
`0` when `d = 1`), and `remainder_sup_divided_by d` is exactly `2^w mod d`. -/
theorem claim_C2 (w d : Nat) (hd : 0 < d) (hdw : d < 2 ^ w) :
    ceil_sup_divided_by w d = (2 ^ w + d - 1) / d % 2 ^ w
    ∧ floor_sup_divided_by w d = 2 ^ w / d % 2 ^ w
    ∧ remainder_sup_divided_by w d = 2 ^ w % d
    ∧ (d = 1 → ceil_sup_divided_by w d = 0 ∧ floor_sup_divided_by w d = 0) := by
  refine ⟨ceil_sup_eq w d hd, floor_sup_eq w d hd hdw, rem_sup_eq w d hd hdw, ?_⟩
  rintro rfl
  rw [ceil_sup_eq w 1 hd, floor_sup_eq w 1 hd hdw]
  simp

/-- Witness for C2 at `w = 32`, `d = 6`. -/
theorem claim_C2_witness :
    ceil_sup_divided_by 32 6 = (2 ^ 32 + 6 - 1) / 6 % 2 ^ 32
    ∧ floor_sup_divided_by 32 6 = 2 ^ 32 / 6 % 2 ^ 32
    ∧ remainder_sup_divided_by 32 6 = 2 ^ 32 % 6
    ∧ (6 = 1 → ceil_sup_divided_by 32 6 = 0 ∧ floor_sup_divided_by 32 6 = 0) :=
  claim_C2 32 6 (by decide) (by decide)

/-- C4: on an out-of-range remainder `d ≤ r`, every relaxed `has_remainder`
returns `false` and every relaxed `has_remainder_less` returns `true`
(matching the oracle: `n % d = r` is false and `n % d < r` is true), and the
relaxed `max_remainder()` equals `max_dividend()` for every family. -/
theorem claim_C4 (w d n r : Nat) (hd : 0 < d) (hr : d ≤ r) :
    mcomp.plain_has_remainder w d n r = false
    ∧ mcomp.plain_has_remainder_less w d n r = true
    ∧ mshift.plain_has_remainder w d n r = false
    ∧ mshift.plain_has_remainder_less w d n r = true
    ∧ minverse.plain_has_remainder w d n r = false
    ∧ new_algo.plain_has_remainder w d n r = false
    ∧ new_algo.plain_has_remainder_less w d n r = true
    ∧ built_in.has_remainder d n r = false
    ∧ built_in.has_remainder_less d n r = true
    ∧ mcomp.plain_max_remainder w d = (mcomp.create w d).max_dividend
    ∧ mshift.plain_max_remainder w d = (mshift.create w d).max_dividend
    ∧ new_algo.plain_max_remainder w d = (new_algo.create w d).max_dividend
    ∧ minverse.plain_max_remainder w d = umax w := by
  have hmod := Nat.mod_lt n hd
  have h1 : ∀ inner : Nat → Nat → Bool, adaptors.relax_eq d inner n r = false := by
    intro inner
    simp [adaptors.relax_eq, Nat.not_lt.mpr hr]
  have h2 : ∀ inner : Nat → Nat → Bool, adaptors.relax_lt d inner n r = true := by
    intro inner
    simp [adaptors.relax_lt, hr]
  refine ⟨h1 _, h2 _, h1 _, h2 _, h1 _, h1 _, h2 _, ?_, ?_, rfl, rfl, rfl, rfl⟩
  · simp [built_in.has_remainder]; omega
  · simp [built_in.has_remainder_less]; omega

/-- Witness for C4 at `w = 8`, `d = 3`, `n = 5`, `r = 7`. -/
theorem claim_C4_witness :
    mcomp.plain_has_remainder 8 3 5 7 = false
    ∧ mcomp.plain_has_remainder_less 8 3 5 7 = true
    ∧ mshift.plain_has_remainder 8 3 5 7 = false
    ∧ mshift.plain_has_remainder_less 8 3 5 7 = true
    ∧ minverse.plain_has_remainder 8 3 5 7 = false
    ∧ new_algo.plain_has_remainder 8 3 5 7 = false
    ∧ new_algo.plain_has_remainder_less 8 3 5 7 = true
    ∧ built_in.has_remainder 3 5 7 = false
    ∧ built_in.has_remainder_less 3 5 7 = true
    ∧ mcomp.plain_max_remainder 8 3 = (mcomp.create 8 3).max_dividend
    ∧ mshift.plain_max_remainder 8 3 = (mshift.create 8 3).max_dividend
    ∧ new_algo.plain_max_remainder 8 3 = (new_algo.create 8 3).max_dividend
    ∧ minverse.plain_max_remainder 8 3 = umax 8 :=
  claim_C4 8 3 5 7 (by decide) (by decide)

end QM

namespace QM

theorem xor_mod_two_pow (a b k : Nat) :
    (a ^^^ b) % 2 ^ k = a % 2 ^ k ^^^ b % 2 ^ k := by
  apply Nat.eq_of_testBit_eq
  intro i
  simp only [Nat.testBit_mod_two_pow, Nat.testBit_xor]
  by_cases h : i < k <;> simp [h]

theorem int_natCast_mod_emod (a b : Nat) :
    ((a % b : Nat) : Int) % (b : Int) = (a : Int) % b := by
  rw [Int.natCast_mod, Int.emod_emod_of_dvd _ dvd_rfl]

theorem minv_base (w n : Nat) (hw : 5 ≤ w) (hodd : n % 2 = 1) :
    n * ((3 * n % 2 ^ w) ^^^ (2 % 2 ^ w)) % 2 ^ 5 = 1 % 2 ^ 5 := by
  have hpow : (2 : Nat) ^ 5 ≤ 2 ^ w := Nat.pow_le_pow_right (by norm_num) hw
  have h32 : (2 : Nat) ^ 5 ∣ 2 ^ w := pow_dvd_pow 2 hw
  have h2w : 2 % 2 ^ w = 2 := Nat.mod_eq_of_lt (by omega)
  rw [h2w]
  have key : ∀ v, v < 2 ^ 5 → v % 2 = 1 →
      v * ((3 * v % 2 ^ 5) ^^^ 2) % 2 ^ 5 = 1 := by decide
  have e1 : n * ((3 * n % 2 ^ w) ^^^ 2) % 2 ^ 5
      = n % 2 ^ 5 * (((3 * n % 2 ^ w) ^^^ 2) % 2 ^ 5) % 2 ^ 5 := Nat.mul_mod _ _ _
  have e2 : ((3 * n % 2 ^ w) ^^^ 2) % 2 ^ 5
      = (3 * (n % 2 ^ 5) % 2 ^ 5) ^^^ 2 := by
    rw [xor_mod_two_pow, Nat.mod_mod_of_dvd _ h32]
    have h3 : 3 * n % 2 ^ 5 = 3 * (n % 2 ^ 5) % 2 ^ 5 := by
      conv_lhs => rw [Nat.mul_mod]
      conv_rhs => rw [Nat.mul_mod, Nat.mod_mod_of_dvd _ (dvd_refl (2 ^ 5))]
    rw [h3]
    norm_num
  rw [e1, e2]
  have hlt : n % 2 ^ 5 < 2 ^ 5 := Nat.mod_lt _ (by norm_num)
  have hodd5 : n % 2 ^ 5 % 2 = 1 := by
    rw [Nat.mod_mod_of_dvd _ (by norm_num : (2:Nat) ∣ 2 ^ 5)]
    exact hodd
  have := key (n % 2 ^ 5) hlt hodd5
  omega

theorem minv_step_spec (k : Nat) {w n m j : Nat} (hjw : j ≤ w) (hk2j : k ≤ 2 * j)
    (hkw : k ≤ w) (h : n * m % 2 ^ j = 1 % 2 ^ j) :
    n * minv_step w n m % 2 ^ k = 1 % 2 ^ k := by
  -- (1) 2^j divides 1 - n*m over ℤ
  have hd1 : (2 ^ j : Int) ∣ 1 - (n : Int) * m := by
    have h' : Nat.ModEq (2 ^ j) (n * m) 1 := h
    have := Nat.modEq_iff_dvd.mp h'
    push_cast at this
    exact this
  -- (2) minv_step ≡ m * (2 - n*m) mod 2^w over ℤ
  have hT : ((minv_step w n m : Nat) : Int)
      ≡ (m : Int) * (2 - (n : Int) * m) [ZMOD (2 : Int) ^ w] := by
    have hle : n * m % 2 ^ w ≤ 2 ^ w := le_of_lt (Nat.mod_lt _ (Nat.two_pow_pos w))
    have hcast : ((minv_step w n m : Nat) : Int)
        = ((m : Int) * ((2 % 2 ^ w + ((2 : Int) ^ w - (n : Int) * m % 2 ^ w)) % 2 ^ w)) % 2 ^ w := by
      unfold minv_step tmul tsub
      rw [Int.natCast_mod]
      push_cast [Nat.cast_sub hle]
      rfl
    rw [hcast]
    have h1 : ((2 : Int) % 2 ^ w) ≡ 2 [ZMOD (2 : Int) ^ w] := Int.emod_emod_of_dvd _ dvd_rfl
    have h2 : ((n : Int) * m % 2 ^ w) ≡ (n : Int) * m [ZMOD (2 : Int) ^ w] :=
      Int.emod_emod_of_dvd _ dvd_rfl
    have h3 : ((2 : Int) ^ w) ≡ 0 [ZMOD (2 : Int) ^ w] := Int.modEq_zero_iff_dvd.mpr dvd_rfl
    have hX : ((2 : Int) % 2 ^ w + ((2 : Int) ^ w - (n : Int) * m % 2 ^ w))
        ≡ 2 - (n : Int) * m [ZMOD (2 : Int) ^ w] := by
      have h4 := h1.add (h3.sub h2)
      calc ((2 : Int) % 2 ^ w + ((2 : Int) ^ w - (n : Int) * m % 2 ^ w))
          ≡ 2 + (0 - (n : Int) * m) [ZMOD (2 : Int) ^ w] := h4
      _ = 2 - (n : Int) * m := by ring
    have hXX : (((2 : Int) % 2 ^ w + ((2 : Int) ^ w - (n : Int) * m % 2 ^ w)) % 2 ^ w)
        ≡ ((2 : Int) % 2 ^ w + ((2 : Int) ^ w - (n : Int) * m % 2 ^ w)) [ZMOD (2 : Int) ^ w] :=
      Int.emod_emod_of_dvd _ dvd_rfl
    have hmul := (hXX.trans hX).mul_left (m : Int)
    have houter : ((m : Int) * (((2 : Int) % 2 ^ w + ((2 : Int) ^ w - (n : Int) * m % 2 ^ w)) % 2 ^ w)) % 2 ^ w
        ≡ (m : Int) * (((2 : Int) % 2 ^ w + ((2 : Int) ^ w - (n : Int) * m % 2 ^ w)) % 2 ^ w) [ZMOD (2 : Int) ^ w] :=
      Int.emod_emod_of_dvd _ dvd_rfl
    exact houter.trans hmul
  -- (3) combine: 1 - n * minv_step = (1 - n*m)^2 + n*(m*(2 - n*m) - minv_step)
  have hd2 : ((2 : Int) ^ w) ∣ ((m : Int) * (2 - (n : Int) * m) - (minv_step w n m : Nat)) :=
    Int.ModEq.dvd hT
  have hkey : (1 : Int) - (n : Int) * (minv_step w n m : Nat)
      = (1 - (n : Int) * m) ^ 2
        + (n : Int) * ((m : Int) * (2 - (n : Int) * m) - (minv_step w n m : Nat)) := by
    ring
  have hdvd_sq : ((2 : Int) ^ k) ∣ (1 - (n : Int) * m) ^ 2 := by
    have : ((2 : Int) ^ j) * (2 ^ j) ∣ (1 - (n : Int) * m) * (1 - (n : Int) * m) :=
      mul_dvd_mul hd1 hd1
    have hpd : ((2 : Int) ^ k) ∣ (2 ^ j) * (2 ^ j) := by
      rw [← pow_add]
      exact pow_dvd_pow 2 (by omega)
    calc ((2 : Int) ^ k) ∣ (2 ^ j) * (2 ^ j) := hpd
    _ ∣ (1 - (n : Int) * m) * (1 - (n : Int) * m) := this
    _ = (1 - (n : Int) * m) ^ 2 := by ring
  have hdvd_w : ((2 : Int) ^ k) ∣ (n : Int) * ((m : Int) * (2 - (n : Int) * m) - (minv_step w n m : Nat)) := by
    have hkN : ((2 : Int) ^ k) ∣ (2 : Int) ^ w := pow_dvd_pow 2 hkw
    exact Dvd.dvd.mul_left (dvd_trans hkN hd2) _
  have hfin : ((2 : Int) ^ k) ∣ 1 - (n : Int) * (minv_step w n m : Nat) := by
    rw [hkey]
    exact dvd_add hdvd_sq hdvd_w
  have : Nat.ModEq (2 ^ k) (n * minv_step w n m) 1 := by
    rw [Nat.modEq_iff_dvd]
    push_cast
    exact hfin
  exact this

theorem modular_inverse_spec (w n : Nat) (hw5 : 5 ≤ w) (hw80 : w ≤ 80)
    (hodd : n % 2 = 1) :
    n * modular_inverse w n % 2 ^ w = 1 % 2 ^ w := by
  have h0 := minv_base w n hw5 hodd
  have h1 := minv_step_spec (min 10 w) (show 5 ≤ w from hw5) (by omega) (by omega) h0
  have h2 := minv_step_spec (min 20 w) (show min 10 w ≤ w by omega) (by omega) (by omega) h1
  have h3 := minv_step_spec (min 40 w) (show min 20 w ≤ w by omega) (by omega) (by omega) h2
  have h4 := minv_step_spec w (show min 40 w ≤ w by omega) (by omega) (by omega) h3
  exact h4

/-- C3: for every odd `n` of width `w ≤ 64` (and `w ≥ 5`, as for every C++
unsigned type), `modular_inverse n` returns `m` with `n * m ≡ 1 (mod 2^w)`:
the five refinement steps suffice. -/
theorem claim_C3 (w n : Nat) (hw5 : 5 ≤ w) (hw64 : w ≤ 64) (hodd : n % 2 = 1)
    (_hn : n < 2 ^ w) :
    n * modular_inverse w n % 2 ^ w = 1 % 2 ^ w :=
  modular_inverse_spec w n hw5 (by omega) hodd

/-- Witness for C3 at `w = 32`, `n = 7`. -/
theorem claim_C3_witness : 7 * modular_inverse 32 7 % 2 ^ 32 = 1 % 2 ^ 32 :=
  claim_C3 32 7 (by decide) (by decide) (by decide) (by decide)

end QM

namespace QM

/-- C6: the hybrid algorithm at 32 bits with `d = 21` answers
`has_remainder 1073741845 1` with `true`, agreeing with the oracle
(`1073741845 % 21 = 1`). -/
theorem claim_C6 :
    new_algo.plain_has_remainder 32 21 1073741845 1 = true
    ∧ built_in.has_remainder 21 1073741845 1 = true
    ∧ 1073741845 % 21 = 1 := by
  refine ⟨by decide, by decide, by decide⟩

theorem new_algo.periodLoopIters_le (w odd : Nat) :
    ∀ (fuel p pw : Nat), new_algo.periodLoopIters w odd fuel p pw ≤ fuel := by
  intro fuel
  induction fuel with
  | zero => intro p pw; simp [new_algo.periodLoopIters]
  | succ f ih =>
    intro p pw
    unfold new_algo.periodLoopIters
    split
    · omega
    · dsimp only
      have := ih 0 (if odd ≤ pw * 2 % 2 ^ w then pw * 2 % 2 ^ w - odd else pw * 2 % 2 ^ w)
      omega

theorem mcomp_create_value (w d : Nat) (hd : 0 < d) :
    (mcomp.create w d).value = d := by
  simp only [mcomp.create]
  split
  · rename_i h; simp [h]
  · rfl

theorem new_create_value (w d : Nat) :
    (new_algo.create w d).value = d := by
  simp only [new_algo.create]
  split
  · rfl
  · rfl

/-- C8: for every `d > 0` the divisor construction of every family is a
total function producing a record for `d`, and the hybrid family's period
search performs at most `max_period = w - exp2 d ≤ w` loop iterations. -/
theorem claim_C8 (w d : Nat) (hd : 0 < d) (hdw : d < 2 ^ w) :
    new_algo.periodLoopIters w (odd_part w d) (w - exp2 w d) 1 (2 % 2 ^ w) ≤ w - exp2 w d
    ∧ w - exp2 w d ≤ w
    ∧ (mcomp.create w d).value = d
    ∧ (mshift.create w d).value = d
    ∧ (minverse.create w d).value = d
    ∧ (new_algo.create w d).value = d := by
  refine ⟨new_algo.periodLoopIters_le w _ _ _ _, Nat.sub_le _ _,
    mcomp_create_value w d hd, rfl, rfl, new_create_value w d⟩

/-- Witness for C8 at `w = 32`, `d = 12`. -/
theorem claim_C8_witness :
    new_algo.periodLoopIters 32 (odd_part 32 12) (32 - exp2 32 12) 1 (2 % 2 ^ 32) ≤ 32 - exp2 32 12
    ∧ 32 - exp2 32 12 ≤ 32
    ∧ (mcomp.create 32 12).value = 12
    ∧ (mshift.create 32 12).value = 12
    ∧ (minverse.create 32 12).value = 12
    ∧ (new_algo.create 32 12).value = 12 :=
  claim_C8 32 12 (by decide) (by decide)

theorem periodLoop_odd_one (w : Nat) (hw : 3 ≤ w) :
    ∀ fuel period, period + fuel ≤ w + 1 → 1 ≤ period →
      new_algo.periodLoop w 1 fuel period (2 ^ (period - 1) + 1) = 0 := by
  intro fuel
  induction fuel with
  | zero => intro period h1 h2; rfl
  | succ f ih =>
    intro period h1 h2
    have hp0 := Nat.two_pow_pos (period - 1)
    have hne : ¬ (2 ^ (period - 1) + 1 = 1) := by omega
    have hpw : 2 ^ (period - 1) * 2 = 2 ^ period := by
      rw [← pow_succ]
      congr 1
      omega
    simp only [new_algo.periodLoop, if_neg hne]
    have harg : (2 ^ (period - 1) + 1) * 2 % 2 ^ w = (2 ^ period + 2) % 2 ^ w := by
      congr 1
      omega
    rw [harg]
    by_cases hcase : period ≤ w - 1
    · have hlt : 2 ^ period + 2 < 2 ^ w := by
        have h3 : 2 ^ period ≤ 2 ^ (w - 1) := Nat.pow_le_pow_right (by norm_num) hcase
        have h4 : 2 ^ (w - 1) * 2 = 2 ^ w := by
          rw [← pow_succ]; congr 1; omega
        have h5 : 2 ^ 2 ≤ 2 ^ (w - 1) := Nat.pow_le_pow_right (by norm_num) (by omega)
        norm_num at h5
        omega
      rw [Nat.mod_eq_of_lt hlt, if_pos (by omega)]
      have hred : 2 ^ period + 2 - 1 = 2 ^ (period + 1 - 1) + 1 := by
        simp
      rw [hred]
      exact ih (period + 1) (by omega) (by omega)
    · have hf0 : f = 0 := by omega
      subst hf0
      rfl

theorem even_part_two_pow (w c : Nat) (hc : c < w) :
    even_part w (2 ^ c) = 2 ^ c := by
  have hlt : 2 ^ c < 2 ^ w := (Nat.pow_lt_pow_iff_right (by norm_num)).mpr hc
  have hp := Nat.two_pow_pos c
  unfold even_part tneg
  have hmod : (2 ^ w - 2 ^ c) % 2 ^ w = 2 ^ w - 2 ^ c := Nat.mod_eq_of_lt (by omega)
  rw [hmod]
  have hrepr : 2 ^ w - 2 ^ c = (2 ^ (w - c) - 1) <<< c := by
    rw [Nat.shiftLeft_eq]
    have : 2 ^ (w - c) * 2 ^ c = 2 ^ w := by
      rw [← pow_add]; congr 1; omega
    have h1 := Nat.two_pow_pos (w - c)
    have h2 := Nat.two_pow_pos c
    calc 2 ^ w - 2 ^ c = 2 ^ (w - c) * 2 ^ c - 1 * 2 ^ c := by rw [this]; ring_nf
    _ = (2 ^ (w - c) - 1) * 2 ^ c := by rw [Nat.sub_mul]
  rw [hrepr]
  apply Nat.eq_of_testBit_eq
  intro i
  rw [Nat.testBit_and, Nat.testBit_shiftLeft, Nat.testBit_two_pow]
  by_cases hic : c = i
  · subst hic
    simp [Nat.testBit_two_pow_sub_one]
    omega
  · simp [hic]

theorem odd_part_two_pow (w c : Nat) (hc : c < w) :
    odd_part w (2 ^ c) = 1 := by
  unfold odd_part
  rw [even_part_two_pow w c hc, Nat.div_self (Nat.two_pow_pos c)]

theorem flog2_two_pow (c : Nat) : flog2 (2 ^ c) = c := by
  obtain ⟨h1, h2⟩ := flog2_spec (2 ^ c) (Nat.two_pow_pos c)
  have ha : flog2 (2 ^ c) ≤ c := (Nat.pow_le_pow_iff_right (by norm_num)).mp h1
  have hb : c < flog2 (2 ^ c) + 1 := (Nat.pow_lt_pow_iff_right (by norm_num)).mp h2
  omega

theorem exp2_two_pow (w c : Nat) (hc : c < w) : exp2 w (2 ^ c) = c := by
  unfold exp2
  rw [even_part_two_pow w c hc, flog2_two_pow]

theorem findPeriod_two_pow (w c : Nat) (hw : 3 ≤ w) (hc : c < w) :
    new_algo.findPeriod w (2 ^ c) = 0 := by
  unfold new_algo.findPeriod
  rw [odd_part_two_pow w c hc, exp2_two_pow w c hc]
  have h2 : 2 % 2 ^ w = 2 := Nat.mod_eq_of_lt (by
    have : 2 ^ 2 ≤ 2 ^ w := Nat.pow_le_pow_right (by norm_num) (by omega)
    norm_num at this
    omega)
  rw [h2]
  have := periodLoop_odd_one w hw (w - c) 1 (by omega) (by omega)
  simpa using this

/-- C10: whenever the hybrid family's period search fails (returns `0`), the
divisor record is built with `multiplier = 0`, `shift = 0`,
`max_dividend = 0` (validity domain `{0}`); the search does fail for `d = 1`
and for every power of two `d = 2^c < 2^w`. -/
theorem claim_C10 (w d : Nat) (hw : 3 ≤ w) :
    (new_algo.findPeriod w d = 0 → new_algo.create w d = ⟨d, 0, 0, 0⟩)
    ∧ (∀ c, c < w → new_algo.findPeriod w (2 ^ c) = 0
        ∧ new_algo.create w (2 ^ c) = ⟨2 ^ c, 0, 0, 0⟩) := by
  have hbase : ∀ e, new_algo.findPeriod w e = 0 → new_algo.create w e = ⟨e, 0, 0, 0⟩ := by
    intro e he
    unfold new_algo.create
    rw [he]
    rfl
  refine ⟨hbase d, fun c hc => ?_⟩
  have hfp := findPeriod_two_pow w c hw hc
  exact ⟨hfp, hbase _ hfp⟩

/-- Witness for C10 at `w = 32`, `d = 32 = 2^5`. -/
theorem claim_C10_witness :
    new_algo.create 32 32 = ⟨32, 0, 0, 0⟩
    ∧ (new_algo.findPeriod 32 (2 ^ 5) = 0
        ∧ new_algo.create 32 (2 ^ 5) = ⟨2 ^ 5, 0, 0, 0⟩) :=
  ⟨(claim_C10 32 32 (by decide)).1 (by decide),
    (claim_C10 32 32 (by decide)).2 5 (by decide)⟩

end QM

namespace QM

theorem ceil_sup_one (w : Nat) : ceil_sup_divided_by w 1 = 0 := by
  unfold ceil_sup_divided_by umax
  have := Nat.two_pow_pos w
  rw [Nat.div_one, Nat.sub_add_cancel (by omega), Nat.mod_self]

theorem floor_sup_one (w : Nat) : floor_sup_divided_by w 1 = 0 := by
  unfold floor_sup_divided_by umax
  have h1 : is_power_of_2 1 = true := by decide
  rw [h1]
  have := Nat.two_pow_pos w
  rw [Nat.div_one]
  show (2 ^ w - 1 + 1) % 2 ^ w = 0
  rw [Nat.sub_add_cancel (by omega), Nat.mod_self]

theorem modular_inverse_one (w : Nat) (hw : 2 ≤ w) : modular_inverse w 1 = 1 := by
  have hp := Nat.two_pow_pos w
  have h4 : 2 ^ 2 ≤ 2 ^ w := Nat.pow_le_pow_right (by norm_num) hw
  norm_num at h4
  have h2 : (2 : Nat) % 2 ^ w = 2 := Nat.mod_eq_of_lt (by omega)
  have h3 : (3 : Nat) % 2 ^ w = 3 := Nat.mod_eq_of_lt (by omega)
  have h1m : (1 : Nat) % 2 ^ w = 1 := Nat.mod_eq_of_lt (by omega)
  have hstep : minv_step w 1 1 = 1 := by
    unfold minv_step tmul tsub
    have e1 : (1 : Nat) * 1 % 2 ^ w = 1 := by rw [Nat.one_mul]; exact h1m
    rw [e1, h2]
    have he : 2 + (2 ^ w - 1) = 1 + 2 ^ w := by omega
    rw [he, Nat.add_mod_right, h1m, Nat.one_mul, h1m]
  unfold modular_inverse
  rw [Nat.mul_one, h3, h2]
  have hbase : (3 : Nat) ^^^ 2 = 1 := by decide
  rw [hbase, hstep, hstep, hstep, hstep]

theorem mcomp_create_one (w : Nat) : mcomp.create w 1 = ⟨1, 0, 1, umax w⟩ := rfl

theorem mshift_create_one (w : Nat) (hw : 1 ≤ w) :
    (mshift.create w 1).multiplier = 0 := by
  unfold mshift.create
  exact ceil_sup_one w

theorem minverse_create_one (w : Nat) (hw : 3 ≤ w) :
    minverse.create w 1 = ⟨1, 1, 0, 0, 0, 0⟩ := by
  unfold minverse.create
  have h1 : odd_part w 1 = 1 := by
    have := odd_part_two_pow w 0 (by omega)
    simpa using this
  have h2 : exp2 w 1 = 0 := by
    have := exp2_two_pow w 0 (by omega)
    simpa using this
  have h3 : remainder_sup_divided_by w 1 = 0 := by
    rw [rem_sup_eq w 1 (by omega) (Nat.one_lt_two_pow_iff.mpr (by omega))]
    exact Nat.mod_one _
  rw [h1, h2, modular_inverse_one w (by omega), floor_sup_one w, h3, Nat.mod_one]

theorem new_create_one (w : Nat) (hw : 3 ≤ w) :
    new_algo.create w 1 = ⟨1, 0, 0, 0⟩ := by
  have hfp : new_algo.findPeriod w 1 = 0 := by
    have := findPeriod_two_pow w 0 hw (by omega)
    simpa using this
  unfold new_algo.create
  rw [hfp]
  rfl

theorem tsub_zero (w n : Nat) (hn : n < 2 ^ w) : tsub w n 0 = n := by
  unfold tsub
  rw [Nat.sub_zero, Nat.add_mod_right]
  exact Nat.mod_eq_of_lt hn

/-- C5: with divisor `d = 1`, `has_remainder n 0` is `true` for every
dividend `n` of the type, in each of the four families and the oracle. -/
theorem claim_C5 (w n : Nat) (hw : 3 ≤ w) (hn : n < 2 ^ w) :
    mcomp.plain_has_remainder w 1 n 0 = true
    ∧ mshift.plain_has_remainder w 1 n 0 = true
    ∧ minverse.plain_has_remainder w 1 n 0 = true
    ∧ new_algo.plain_has_remainder w 1 n 0 = true
    ∧ built_in.has_remainder 1 n 0 = true := by
  have hp := Nat.two_pow_pos w
  refine ⟨?_, ?_, ?_, ?_, ?_⟩
  · show adaptors.relax_eq 1 (mcomp.has_remainder w (mcomp.create w 1)) n 0 = true
    rw [mcomp_create_one w]
    unfold adaptors.relax_eq mcomp.has_remainder
    simp [tmul]
  · show adaptors.relax_eq 1 (mshift.bc_has_remainder w 1) n 0 = true
    unfold adaptors.relax_eq mshift.bc_has_remainder
    unfold mshift.mapped_remainder_bounded mshift.mapped_remainder
    rw [mshift_create_one w (by omega)]
    simp [tmul, rshift]
  · show adaptors.relax_eq 1 (minverse.has_remainder w (minverse.create w 1)) n 0 = true
    rw [minverse_create_one w hw]
    unfold adaptors.relax_eq minverse.has_remainder minverse.equivalents
    rw [tsub_zero w n hn]
    have e1 : tmul w 1 n = n := by
      unfold tmul
      rw [Nat.one_mul]
      exact Nat.mod_eq_of_lt hn
    have e2 : tadd w 0 (if (0 : Nat) < 0 then 1 else 0) = 0 := by
      unfold tadd
      simp
    have e3 : tsub w 0 1 = 2 ^ w - 1 := by
      unfold tsub
      rw [Nat.zero_add]
      exact Nat.mod_eq_of_lt (by omega)
    rw [e1, e2, e3]
    have e4 : rrotate w n 0 = n := by
      unfold rrotate
      simp
    rw [e4]
    simp
    omega
  · show adaptors.relax_eq 1 (new_algo.has_remainder w (new_algo.create w 1)) n 0 = true
    rw [new_create_one w hw]
    unfold adaptors.relax_eq new_algo.has_remainder new_algo.has_remainder_less
    unfold new_algo.fractional tadd tmul
    simp
  · simp [built_in.has_remainder, Nat.mod_one]

/-- Witness for C5 at `w = 8`, `n = 200`. -/
theorem claim_C5_witness :
    mcomp.plain_has_remainder 8 1 200 0 = true
    ∧ mshift.plain_has_remainder 8 1 200 0 = true
    ∧ minverse.plain_has_remainder 8 1 200 0 = true
    ∧ new_algo.plain_has_remainder 8 1 200 0 = true
    ∧ built_in.has_remainder 1 200 0 = true :=
  claim_C5 8 200 (by decide) (by decide)

/-- C9 (amended): `has_remainder_less_equal n r` is exactly
`has_remainder_less n ((r + 1) mod 2^w)` in every `extra_comparison` stack;
at `r = 2^w - 1` the argument wraps to `0`, and the mcomp/mshift stacks
then answer `false` for every `n`, although `n mod d ≤ r` is true. -/
theorem claim_C9 (w d n r : Nat) (hd : 0 < d) (hn : n < 2 ^ w) :
    mcomp.plain_has_remainder_less_equal w d n r
      = mcomp.plain_has_remainder_less w d n ((r + 1) % 2 ^ w)
    ∧ mshift.plain_has_remainder_less_equal w d n r
      = mshift.plain_has_remainder_less w d n ((r + 1) % 2 ^ w)
    ∧ new_algo.plain_has_remainder_less_equal w d n r
      = new_algo.plain_has_remainder_less w d n ((r + 1) % 2 ^ w)
    ∧ (r = 2 ^ w - 1 →
        mcomp.plain_has_remainder_less_equal w d n r = false
        ∧ mshift.plain_has_remainder_less_equal w d n r = false
        ∧ n % d ≤ r) := by
  have hp := Nat.two_pow_pos w
  refine ⟨rfl, rfl, rfl, ?_⟩
  rintro rfl
  have hwrap : (2 ^ w - 1 + 1) % 2 ^ w = 0 := by
    rw [Nat.sub_add_cancel (by omega), Nat.mod_self]
  have hnd : ¬ (d ≤ 0) := by omega
  refine ⟨?_, ?_, ?_⟩
  · show adaptors.extra_le w (mcomp.plain_has_remainder_less w d) n (2 ^ w - 1) = false
    unfold adaptors.extra_le
    rw [hwrap]
    show adaptors.relax_lt d (mcomp.has_remainder_less w (mcomp.create w d)) n 0 = false
    unfold adaptors.relax_lt mcomp.has_remainder_less
    simp [tmul, hnd]
  · show adaptors.extra_le w (mshift.plain_has_remainder_less w d) n (2 ^ w - 1) = false
    unfold adaptors.extra_le
    rw [hwrap]
    show adaptors.relax_lt d (mshift.bc_has_remainder_less w d) n 0 = false
    unfold adaptors.relax_lt mshift.bc_has_remainder_less
    unfold mshift.mapped_remainder_bounded mshift.mapped_remainder
    simp [tmul, rshift, hnd]
  · have := Nat.mod_le n d
    omega

/-- Witness for C9 at `w = 8`, `d = 3`, `n = 5`, `r = 255`. -/
theorem claim_C9_witness :
    mcomp.plain_has_remainder_less_equal 8 3 5 255
      = mcomp.plain_has_remainder_less 8 3 5 ((255 + 1) % 2 ^ 8)
    ∧ mshift.plain_has_remainder_less_equal 8 3 5 255
      = mshift.plain_has_remainder_less 8 3 5 ((255 + 1) % 2 ^ 8)
    ∧ new_algo.plain_has_remainder_less_equal 8 3 5 255
      = new_algo.plain_has_remainder_less 8 3 5 ((255 + 1) % 2 ^ 8)
    ∧ (255 = 2 ^ 8 - 1 →
        mcomp.plain_has_remainder_less_equal 8 3 5 255 = false
        ∧ mshift.plain_has_remainder_less_equal 8 3 5 255 = false
        ∧ 5 % 3 ≤ 255) :=
  claim_C9 8 3 5 255 (by decide) (by decide)

/-- Counterexample to C9 as stated: in the hybrid stack at 32 bits with
`d = 1` (a degenerate record with `multiplier = 0`),
`has_remainder_less_equal n (2^32 - 1)` returns `true` (not `false`) at
`n = 0`. -/
theorem claim_C9_counterexample :
    new_algo.plain_has_remainder_less_equal 32 1 0 (2 ^ 32 - 1) = true := by
  decide

end QM
namespace QM

theorem ceil_log2_spec (d : Nat) (hd : 1 ≤ d) :
    d ≤ 2 ^ ceil_log2 d ∧ 2 ^ ceil_log2 d < 2 * d := by
  obtain ⟨h1, h2⟩ := flog2_spec d hd
  unfold ceil_log2
  by_cases hp : is_power_of_2 d = true
  · obtain ⟨k, rfl⟩ := is_power_of_2_iff.mp hp
    rw [hp, flog2_two_pow]
    simp
  · have hp' : is_power_of_2 d = false := Bool.eq_false_iff.mpr hp
    rw [hp']
    simp only [Bool.false_eq_true, if_false, Nat.sub_zero]
    constructor
    · rw [pow_succ] at h2
      omega
    · rw [pow_succ]
      have hne : d ≠ 2 ^ flog2 d := by
        intro he
        exact hp (is_power_of_2_iff.mpr ⟨flog2 d, he⟩)
      omega

theorem ceil_log2_le (w d : Nat) (hd : 1 ≤ d) (hdw : d < 2 ^ w) :
    ceil_log2 d ≤ w := by
  obtain ⟨h1, h2⟩ := ceil_log2_spec d hd
  by_contra hgt
  have : 2 ^ (w + 1) ≤ 2 ^ ceil_log2 d := Nat.pow_le_pow_right (by norm_num) (by omega)
  rw [pow_succ] at this
  omega

theorem ceil_sup_raw (w d : Nat) (hd : 2 ≤ d) (hw : 1 ≤ w) :
    ceil_sup_divided_by w d = (2 ^ w - 1) / d + 1 := by
  unfold ceil_sup_divided_by umax
  apply Nat.mod_eq_of_lt
  have h1 : (2 ^ w - 1) / d ≤ (2 ^ w - 1) / 2 := Nat.div_le_div_left hd (by omega)
  have h2 : 2 ^ w = 2 ^ (w - 1) * 2 := by rw [← pow_succ]; congr 1; omega
  have h3 : (2 ^ w - 1) / 2 = 2 ^ (w - 1) - 1 := by
    rw [h2]
    exact mul_sub_one_div (by omega) (Nat.two_pow_pos (w - 1))
  have h4 := Nat.two_pow_pos (w - 1)
  omega

/-- The multiply-and-shift bucket lemma: if `M * d = 2^w + e` with
`1 ≤ e < d ≤ 2^p ≤ 2^w` and `e * n < 2^(w-p)`, then the shifted truncated
product depends only on `n % d`. -/
theorem mshift_key (w d n M e p : Nat) (hd : 2 ≤ d)
    (hM : M * d = 2 ^ w + e) (he1 : 1 ≤ e) (hdp : d ≤ 2 ^ p)
    (hpw : p ≤ w) (hen : e * n < 2 ^ (w - p)) :
    M * n % 2 ^ w / 2 ^ (w - p) = M * (n % d) / 2 ^ (w - p) := by
  have hd0 : 0 < d := by omega
  have hP := Nat.two_pow_pos (w - p)
  have hps : 2 ^ p * 2 ^ (w - p) = 2 ^ w := by rw [← pow_add]; congr 1; omega
  obtain ⟨q, t, htd, rfl⟩ : ∃ q t, t < d ∧ n = d * q + t :=
    ⟨n / d, n % d, Nat.mod_lt n hd0, (Nat.div_add_mod n d).symm⟩
  rw [Nat.mul_add_mod, Nat.mod_eq_of_lt htd]
  obtain ⟨f, hf⟩ : ∃ f, M * t / 2 ^ (w - p) = f := ⟨_, rfl⟩
  rw [hf]
  have hdm := Nat.div_add_mod (M * t) (2 ^ (w - p))
  rw [hf] at hdm
  have hrem : M * t % 2 ^ (w - p) < 2 ^ (w - p) := Nat.mod_lt _ hP
  have het : e * t < 2 ^ (w - p) := by
    have h1 : e * t ≤ e * (d * q + t) := Nat.mul_le_mul_left e (by omega)
    omega
  have hdMt : d * (M * t) = t * 2 ^ w + e * t := by
    calc d * (M * t) = M * d * t := by ring
    _ = (2 ^ w + e) * t := by rw [hM]
    _ = t * 2 ^ w + e * t := by ring
  -- step 1 : t * 2 ^ p + 1 ≤ d * (f + 1)
  have hA : t * 2 ^ p + 1 ≤ d * (f + 1) := by
    have h4 : M * t + 1 ≤ 2 ^ (w - p) * f + 2 ^ (w - p) := by omega
    have h5 := Nat.mul_le_mul_left d h4
    have h6 : d * (M * t + 1) = d * (M * t) + d := by ring
    have h7 : d * (2 ^ (w - p) * f + 2 ^ (w - p)) = d * (f + 1) * 2 ^ (w - p) := by ring
    have h9 : t * 2 ^ p * 2 ^ (w - p) = t * 2 ^ w := by
      rw [Nat.mul_assoc, hps]
    have h8 : t * 2 ^ p * 2 ^ (w - p) < d * (f + 1) * 2 ^ (w - p) := by omega
    have := lt_of_mul_lt_mul_right h8 (Nat.zero_le _)
    omega
  -- step 2 : q * e + M * t < (f + 1) * 2 ^ (w - p)
  have hqe : e * (d * q + t) = d * (q * e) + e * t := by ring
  have hsum : d * (q * e + M * t) = e * (d * q + t) + t * 2 ^ w := by
    calc d * (q * e + M * t) = d * (q * e) + d * (M * t) := by ring
    _ = d * (q * e) + (t * 2 ^ w + e * t) := by rw [hdMt]
    _ = e * (d * q + t) + t * 2 ^ w := by omega
  have hB : q * e + M * t < (f + 1) * 2 ^ (w - p) := by
    have h9 : t * 2 ^ p * 2 ^ (w - p) = t * 2 ^ w := by
      rw [Nat.mul_assoc, hps]
    have h10 : (t * 2 ^ p + 1) * 2 ^ (w - p) ≤ d * (f + 1) * 2 ^ (w - p) :=
      Nat.mul_le_mul_right _ hA
    have h11 : (t * 2 ^ p + 1) * 2 ^ (w - p)
        = t * 2 ^ p * 2 ^ (w - p) + 2 ^ (w - p) := by ring
    have h12 : d * (q * e + M * t) < d * ((f + 1) * 2 ^ (w - p)) := by
      have h13 : d * ((f + 1) * 2 ^ (w - p)) = d * (f + 1) * 2 ^ (w - p) := by ring
      omega
    exact lt_of_mul_lt_mul_left h12 (Nat.zero_le _)
  -- step 3 : M * t < 2 ^ w hence (f + 1) * 2 ^ (w - p) ≤ 2 ^ w
  have hMt_lt : M * t < 2 ^ w := by
    have h12 : t * 2 ^ w ≤ (d - 1) * 2 ^ w := Nat.mul_le_mul_right _ (by omega)
    have h13 : (d - 1) * 2 ^ w + 2 ^ w = d * 2 ^ w := by
      have hd1 : d - 1 + 1 = d := by omega
      calc (d - 1) * 2 ^ w + 2 ^ w = (d - 1 + 1) * 2 ^ w := by ring
      _ = d * 2 ^ w := by rw [hd1]
    have h14 : 2 ^ (w - p) ≤ 2 ^ w := Nat.pow_le_pow_right (by norm_num) (by omega)
    have h15 : d * (M * t) < d * 2 ^ w := by omega
    exact lt_of_mul_lt_mul_left h15 (Nat.zero_le _)
  have hup : (f + 1) * 2 ^ (w - p) ≤ 2 ^ w := by
    have hcomm : f * 2 ^ (w - p) = 2 ^ (w - p) * f := by ring
    have h16 : f * 2 ^ (w - p) < 2 ^ p * 2 ^ (w - p) := by omega
    have h17 : f < 2 ^ p := lt_of_mul_lt_mul_right h16 (Nat.zero_le _)
    calc (f + 1) * 2 ^ (w - p) ≤ 2 ^ p * 2 ^ (w - p) :=
      Nat.mul_le_mul_right _ (by omega)
    _ = 2 ^ w := hps
  -- step 4 : reduce the modulus and the division
  have hMn : M * (d * q + t) = (q * e + M * t) + q * 2 ^ w := by
    calc M * (d * q + t) = M * d * q + M * t := by ring
    _ = (2 ^ w + e) * q + M * t := by rw [hM]
    _ = (q * e + M * t) + q * 2 ^ w := by ring
  have hmod : M * (d * q + t) % 2 ^ w = q * e + M * t := by
    rw [hMn, Nat.add_mul_mod_self_right]
    exact Nat.mod_eq_of_lt (by omega)
  rw [hmod]
  have hlow : f * 2 ^ (w - p) ≤ q * e + M * t := by
    have hcomm2 : f * 2 ^ (w - p) = 2 ^ (w - p) * f := by ring
    omega
  exact Nat.div_eq_of_lt_le hlow (by omega)

theorem mshift_mono (M s t1 t2 : Nat) (hM : 2 ^ s ≤ M) (h : t1 < t2) :
    M * t1 / 2 ^ s < M * t2 / 2 ^ s := by
  have h1 : M * t1 + 2 ^ s ≤ M * t2 := by
    have h2 : M * (t1 + 1) ≤ M * t2 := Nat.mul_le_mul_left M (by omega)
    have h3 : M * (t1 + 1) = M * t1 + M := by ring
    omega
  have h4 : (M * t1 + 2 ^ s) / 2 ^ s = M * t1 / 2 ^ s + 1 :=
    Nat.add_div_right _ (Nat.two_pow_pos s)
  have h5 : (M * t1 + 2 ^ s) / 2 ^ s ≤ M * t2 / 2 ^ s :=
    Nat.div_le_div_right h1
  omega

end QM
namespace QM

theorem rshift_zero_val (w c : Nat) : rshift w 0 c = 0 := by
  unfold rshift
  split <;> simp

theorem mshift_create_mult (w d : Nat) :
    (mshift.create w d).multiplier = ceil_sup_divided_by w d := rfl

theorem mshift_create_shift (w d : Nat) :
    (mshift.create w d).shift = w - ceil_log2 d := rfl

theorem mshift_mapped_one (w x : Nat) :
    mshift.mapped_remainder w (mshift.create w 1) x = 0 := by
  unfold mshift.mapped_remainder
  rw [mshift_create_mult, ceil_sup_one]
  have h0 : tmul w 0 x = 0 := by simp [tmul]
  rw [h0, rshift_zero_val]

theorem ceil_log2_two_pow (k : Nat) : ceil_log2 (2 ^ k) = k := by
  unfold ceil_log2
  rw [flog2_two_pow]
  have hp : is_power_of_2 (2 ^ k) = true := is_power_of_2_iff.mpr ⟨k, rfl⟩
  rw [hp]
  simp

theorem mshift_mapped_pow2 (w k x : Nat) (hk1 : 1 ≤ k) (hkw : k < w) :
    mshift.mapped_remainder w (mshift.create w (2 ^ k)) x = x % 2 ^ k := by
  have h2 : (2 : Nat) ^ w = 2 ^ (w - k) * 2 ^ k := by
    rw [← pow_add]; congr 1; omega
  have hcs : ceil_sup_divided_by w (2 ^ k) = 2 ^ (w - k) := by
    rw [ceil_sup_raw w _ (Nat.one_lt_two_pow_iff.mpr (by omega)) (by omega)]
    rw [h2, mul_sub_one_div (Nat.two_pow_pos k) (Nat.two_pow_pos (w - k))]
    have := Nat.two_pow_pos (w - k)
    omega
  unfold mshift.mapped_remainder rshift tmul
  rw [mshift_create_mult, mshift_create_shift, hcs, ceil_log2_two_pow]
  have hswlt : w - k < w := by omega
  rw [if_pos hswlt]
  conv_lhs => rw [h2]
  rw [Nat.mul_mod_mul_left, Nat.mul_div_cancel_left _ (Nat.two_pow_pos (w - k))]

theorem mshift_Me (w d : Nat) (hd : 2 ≤ d) (hdw : d < 2 ^ w)
    (hnp : is_power_of_2 d = false) :
    ceil_sup_divided_by w d * d = 2 ^ w + (d - 2 ^ w % d)
    ∧ 1 ≤ d - 2 ^ w % d ∧ d - 2 ^ w % d < d := by
  have hw1 : 1 ≤ w := by
    by_contra hh
    have hw0 : w = 0 := by omega
    subst hw0
    simp at hdw
    omega
  have hnd : ¬ d ∣ 2 ^ w := by
    intro hdvd
    obtain ⟨k, _, rfl⟩ := (pow_dvd_pow_iff_pow2 (by omega)).mp hdvd
    have := is_power_of_2_iff.mpr ⟨k, rfl⟩
    rw [hnp] at this
    exact Bool.false_ne_true this
  have hr0 : 0 < 2 ^ w % d := by
    rcases Nat.eq_zero_or_pos (2 ^ w % d) with h0 | h0
    · exact absurd (Nat.dvd_of_mod_eq_zero h0) hnd
    · exact h0
  have hrd : 2 ^ w % d < d := Nat.mod_lt _ (by omega)
  have hceil : ceil_sup_divided_by w d = 2 ^ w / d + 1 := by
    rw [ceil_sup_raw w d hd hw1, sub_one_div_of_not_dvd (by omega) hnd]
  have hdm := Nat.div_add_mod (2 ^ w) d
  refine ⟨?_, by omega, by omega⟩
  rw [hceil]
  calc (2 ^ w / d + 1) * d = d * (2 ^ w / d) + d := by ring
  _ = 2 ^ w + (d - 2 ^ w % d) := by omega

theorem mshift_maxdiv_en (w d n : Nat) (hd : 2 ≤ d) (hdw : d < 2 ^ w)
    (hn : n ≤ (mshift.create w d).max_dividend) :
    (d - 2 ^ w % d) * n < 2 ^ (w - ceil_log2 d) := by
  have hP := Nat.two_pow_pos (w - ceil_log2 d)
  have hplew := ceil_log2_le w d (by omega) hdw
  have hmax : (mshift.create w d).max_dividend
      = (if ceil_log2 d = w then 0
         else if umax w / (d - remainder_sup_divided_by w d) < d - 1 then 0
         else (if umax w / (d - remainder_sup_divided_by w d) = d - 1
               then umax w / (d - remainder_sup_divided_by w d)
               else umax w / (d - remainder_sup_divided_by w d)
                 - umax w / (d - remainder_sup_divided_by w d) % d - 1)
              / 2 ^ ceil_log2 d) := rfl
  rw [rem_sup_eq w d (by omega) hdw] at hmax
  by_cases hpw : ceil_log2 d = w
  · rw [if_pos hpw] at hmax
    have hn0 : n = 0 := by omega
    subst hn0
    simpa using hP
  · rw [if_neg hpw] at hmax
    by_cases hlt : umax w / (d - 2 ^ w % d) < d - 1
    · rw [if_pos hlt] at hmax
      have hn0 : n = 0 := by omega
      subst hn0
      simpa using hP
    · rw [if_neg hlt] at hmax
      have hb : (if umax w / (d - 2 ^ w % d) = d - 1
               then umax w / (d - 2 ^ w % d)
               else umax w / (d - 2 ^ w % d) - umax w / (d - 2 ^ w % d) % d - 1)
          ≤ umax w / (d - 2 ^ w % d) := by
        split <;> omega
      have hnb : n ≤ (if umax w / (d - 2 ^ w % d) = d - 1
               then umax w / (d - 2 ^ w % d)
               else umax w / (d - 2 ^ w % d) - umax w / (d - 2 ^ w % d) % d - 1)
              / 2 ^ ceil_log2 d := by omega
      have hmul : n * 2 ^ ceil_log2 d ≤ umax w / (d - 2 ^ w % d) := by
        have h := (Nat.le_div_iff_mul_le (Nat.two_pow_pos (ceil_log2 d))).mp hnb
        omega
      have hae : umax w / (d - 2 ^ w % d) * (d - 2 ^ w % d) ≤ umax w :=
        Nat.div_mul_le_self _ _
      have hchain : n * 2 ^ ceil_log2 d * (d - 2 ^ w % d) ≤ umax w := by
        calc n * 2 ^ ceil_log2 d * (d - 2 ^ w % d)
            ≤ umax w / (d - 2 ^ w % d) * (d - 2 ^ w % d) :=
          Nat.mul_le_mul_right _ hmul
        _ ≤ umax w := hae
      have hps : 2 ^ (w - ceil_log2 d) * 2 ^ ceil_log2 d = 2 ^ w := by
        rw [← pow_add]; congr 1; omega
      have hform : (d - 2 ^ w % d) * n * 2 ^ ceil_log2 d
          = n * 2 ^ ceil_log2 d * (d - 2 ^ w % d) := by ring
      have hW : umax w < 2 ^ w := by
        unfold umax
        have := Nat.two_pow_pos w
        omega
      have hfin : (d - 2 ^ w % d) * n * 2 ^ ceil_log2 d
          < 2 ^ (w - ceil_log2 d) * 2 ^ ceil_log2 d := by omega
      exact lt_of_mul_lt_mul_right hfin (Nat.zero_le _)

theorem mshift_char (w d n : Nat) (hd : 2 ≤ d) (hdw : d < 2 ^ w)
    (hnp : is_power_of_2 d = false)
    (hn : n ≤ (mshift.create w d).max_dividend) :
    mshift.mapped_remainder w (mshift.create w d) n
      = ceil_sup_divided_by w d * (n % d) / 2 ^ (w - ceil_log2 d) := by
  obtain ⟨hM, he1, hed⟩ := mshift_Me w d hd hdw hnp
  have hen := mshift_maxdiv_en w d n hd hdw hn
  have hcl := ceil_log2_spec d (by omega)
  have hplew := ceil_log2_le w d (by omega) hdw
  have hw1 : 1 ≤ w := by
    by_contra hh
    have hw0 : w = 0 := by omega
    subst hw0
    simp at hdw
    omega
  have hp1 : 1 ≤ ceil_log2 d := by
    by_contra hh
    have h0 : ceil_log2 d = 0 := by omega
    rw [h0] at hcl
    simp at hcl
    omega
  unfold mshift.mapped_remainder rshift tmul
  rw [mshift_create_mult, mshift_create_shift]
  rw [if_pos (by omega : w - ceil_log2 d < w)]
  exact mshift_key w d n (ceil_sup_divided_by w d) (d - 2 ^ w % d)
    (ceil_log2 d) hd hM he1 hcl.1 hplew hen

theorem mshift_mult_ge (w d : Nat) (hd : 2 ≤ d) (hdw : d < 2 ^ w)
    (hnp : is_power_of_2 d = false) :
    2 ^ (w - ceil_log2 d) ≤ ceil_sup_divided_by w d := by
  obtain ⟨hM, he1, hed⟩ := mshift_Me w d hd hdw hnp
  have hcl := ceil_log2_spec d (by omega)
  have hplew := ceil_log2_le w d (by omega) hdw
  have hps : 2 ^ ceil_log2 d * 2 ^ (w - ceil_log2 d) = 2 ^ w := by
    rw [← pow_add]; congr 1; omega
  have h1 : d * 2 ^ (w - ceil_log2 d) ≤ 2 ^ ceil_log2 d * 2 ^ (w - ceil_log2 d) :=
    Nat.mul_le_mul_right _ hcl.1
  have h2 : 2 ^ (w - ceil_log2 d) * d ≤ ceil_sup_divided_by w d * d := by
    have h3 : 2 ^ (w - ceil_log2 d) * d = d * 2 ^ (w - ceil_log2 d) := by ring
    omega
  exact Nat.le_of_mul_le_mul_right h2 (by omega)

theorem mshift_respects_mod (w d n m : Nat) (hd : 0 < d) (hdw : d < 2 ^ w)
    (hn : n ≤ (mshift.create w d).max_dividend)
    (hm : m ≤ (mshift.create w d).max_dividend) (hrel : n % d = m % d) :
    mshift.mapped_remainder w (mshift.create w d) n
      = mshift.mapped_remainder w (mshift.create w d) m := by
  rcases Nat.lt_or_ge d 2 with hd1 | hd2
  · have hd1' : d = 1 := by omega
    subst hd1'
    rw [mshift_mapped_one, mshift_mapped_one]
  by_cases hp : is_power_of_2 d = true
  · obtain ⟨k, rfl⟩ := is_power_of_2_iff.mp hp
    have hk1 : 1 ≤ k := by
      rcases Nat.eq_zero_or_pos k with h0 | h0
      · subst h0; norm_num at hd2
      · exact h0
    have hkw : k < w := (Nat.pow_lt_pow_iff_right (by norm_num)).mp hdw
    rw [mshift_mapped_pow2 w k n hk1 hkw, mshift_mapped_pow2 w k m hk1 hkw]
    exact hrel
  · have hp2 : is_power_of_2 d = false := Bool.eq_false_iff.mpr hp
    rw [mshift_char w d n hd2 hdw hp2 hn, mshift_char w d m hd2 hdw hp2 hm, hrel]

theorem mshift_strict_mono (w d n m : Nat) (hd : 0 < d) (hdw : d < 2 ^ w)
    (hn : n ≤ (mshift.create w d).max_dividend)
    (hm : m ≤ (mshift.create w d).max_dividend) (hrel : n % d < m % d) :
    mshift.mapped_remainder w (mshift.create w d) n
      < mshift.mapped_remainder w (mshift.create w d) m := by
  rcases Nat.lt_or_ge d 2 with hd1 | hd2
  · have hd1' : d = 1 := by omega
    subst hd1'
    rw [Nat.mod_one, Nat.mod_one] at hrel
    omega
  by_cases hp : is_power_of_2 d = true
  · obtain ⟨k, rfl⟩ := is_power_of_2_iff.mp hp
    have hk1 : 1 ≤ k := by
      rcases Nat.eq_zero_or_pos k with h0 | h0
      · subst h0; norm_num at hd2
      · exact h0
    have hkw : k < w := (Nat.pow_lt_pow_iff_right (by norm_num)).mp hdw
    rw [mshift_mapped_pow2 w k n hk1 hkw, mshift_mapped_pow2 w k m hk1 hkw]
    exact hrel
  · have hp2 : is_power_of_2 d = false := Bool.eq_false_iff.mpr hp
    rw [mshift_char w d n hd2 hdw hp2 hn, mshift_char w d m hd2 hdw hp2 hm]
    exact mshift_mono _ _ _ _ (mshift_mult_ge w d hd2 hdw hp2) hrel

/-- C7: for the multiply-and-shift family, `mapped_remainder` is a strictly
increasing function of `n % d` on the validity domain, and
`mapped_remainder_bounded` agrees with `mapped_remainder` on arguments
below `d`. -/
theorem claim_C7 (w d n m : Nat) (hd : 0 < d) (hdw : d < 2 ^ w)
    (hn : n ≤ (mshift.create w d).max_dividend)
    (hm : m ≤ (mshift.create w d).max_dividend) :
    (n % d = m % d →
      mshift.mapped_remainder w (mshift.create w d) n
        = mshift.mapped_remainder w (mshift.create w d) m)
    ∧ (n % d < m % d →
      mshift.mapped_remainder w (mshift.create w d) n
        < mshift.mapped_remainder w (mshift.create w d) m)
    ∧ (∀ x, x < d →
      mshift.mapped_remainder_bounded w (mshift.create w d) x
        = mshift.mapped_remainder w (mshift.create w d) x) :=
  ⟨mshift_respects_mod w d n m hd hdw hn hm,
   mshift_strict_mono w d n m hd hdw hn hm,
   fun x _ => rfl⟩

/-- Witness for C7 at `w = 8`, `d = 5`, `n = 13`, `m = 9`. -/
theorem claim_C7_witness :
    (7 % 5 = 4 % 5 →
      mshift.mapped_remainder 8 (mshift.create 8 5) 7
        = mshift.mapped_remainder 8 (mshift.create 8 5) 4)
    ∧ (7 % 5 < 4 % 5 →
      mshift.mapped_remainder 8 (mshift.create 8 5) 7
        < mshift.mapped_remainder 8 (mshift.create 8 5) 4)
    ∧ (∀ x, x < 5 →
      mshift.mapped_remainder_bounded 8 (mshift.create 8 5) x
        = mshift.mapped_remainder 8 (mshift.create 8 5) x) :=
  claim_C7 8 5 7 4 (by decide) (by decide) (by decide) (by decide)

end QM
namespace QM

theorem testBit_one_iff (i : Nat) : (1 : Nat).testBit i = decide (0 = i) := by
  rw [show (1 : Nat) = 2 ^ 0 from rfl, Nat.testBit_two_pow]

theorem odd_and_two_pow_sub (w d : Nat) (hodd : d % 2 = 1) (hdw : d < 2 ^ w) :
    d &&& (2 ^ w - d) = 1 := by
  have hd : 0 < d := by omega
  have hw : 0 < w := by
    rcases Nat.eq_zero_or_pos w with h | h
    · subst h; simp at hdw; omega
    · exact h
  have hd1 : d - 1 < 2 ^ w := by omega
  have hsub : 2 ^ w - d = 2 ^ w - ((d - 1) + 1) := by omega
  apply Nat.eq_of_testBit_eq
  intro i
  rw [Nat.testBit_and, hsub, Nat.testBit_two_pow_sub_succ hd1, testBit_one_iff]
  cases i with
  | zero =>
    have h0 : d.testBit 0 = true := by
      rw [Nat.testBit_zero]
      simp [hodd]
    have h1 : (d - 1).testBit 0 = false := by
      rw [Nat.testBit_zero]
      simp
      omega
    rw [h0, h1]
    simp [hw]
  | succ j =>
    have heq : (d - 1).testBit (j + 1) = d.testBit (j + 1) := by
      rw [Nat.testBit_add_one, Nat.testBit_add_one]
      congr 1
      omega
    rw [← heq]
    rcases Bool.eq_false_or_eq_true ((d - 1).testBit (j + 1)) with hb | hb <;>
      simp [hb]

theorem double_and_double (a b : Nat) : 2 * a &&& 2 * b = 2 * (a &&& b) := by
  apply Nat.eq_of_testBit_eq
  intro i
  cases i with
  | zero =>
    rw [Nat.testBit_and, Nat.testBit_zero, Nat.testBit_zero, Nat.testBit_zero]
    simp [Nat.mul_mod_right]
  | succ j =>
    rw [Nat.testBit_and, Nat.testBit_add_one, Nat.testBit_add_one, Nat.testBit_add_one,
      Nat.mul_div_cancel_left a (by norm_num), Nat.mul_div_cancel_left b (by norm_num),
      Nat.mul_div_cancel_left (a &&& b) (by norm_num), Nat.testBit_and]

theorem even_part_odd (w d : Nat) (hodd : d % 2 = 1) (hdw : d < 2 ^ w) :
    even_part w d = 1 := by
  have hd : 0 < d := by omega
  unfold even_part tneg
  rw [Nat.mod_eq_of_lt (by omega : 2 ^ w - d < 2 ^ w)]
  exact odd_and_two_pow_sub w d hodd hdw

theorem even_part_double (w a : Nat) (ha : 0 < a) (haw : 2 * a < 2 ^ w) :
    even_part w (2 * a) = 2 * even_part (w - 1) a := by
  have hw : 1 ≤ w := by
    rcases Nat.eq_zero_or_pos w with h | h
    · subst h; simp at haw; omega
    · exact h
  have hpow : 2 ^ w = 2 * 2 ^ (w - 1) := by
    rw [← pow_succ']
    congr 1
    omega
  have haw2 : a < 2 ^ (w - 1) := by omega
  unfold even_part tneg
  rw [Nat.mod_eq_of_lt (by omega : 2 ^ w - 2 * a < 2 ^ w),
    Nat.mod_eq_of_lt (by omega : 2 ^ (w - 1) - a < 2 ^ (w - 1))]
  have he : 2 ^ w - 2 * a = 2 * (2 ^ (w - 1) - a) := by omega
  rw [he, double_and_double]

theorem exists_odd_factorization : ∀ d, 0 < d → ∃ c g, g % 2 = 1 ∧ d = 2 ^ c * g := by
  intro d
  induction d using Nat.strong_induction_on with
  | _ d ih =>
    intro hd
    rcases Nat.even_or_odd d with he | ho
    · obtain ⟨a, ha⟩ := he
      have ha2 : d = 2 * a := by omega
      have hapos : 0 < a := by omega
      obtain ⟨c, g, hg, hfac⟩ := ih a (by omega) hapos
      exact ⟨c + 1, g, hg, by rw [ha2, hfac]; ring⟩
    · exact ⟨0, d, Nat.odd_iff.mp ho, by simp⟩

theorem even_part_factor : ∀ w c g, g % 2 = 1 → 2 ^ c * g < 2 ^ w →
    even_part w (2 ^ c * g) = 2 ^ c := by
  intro w c
  induction c generalizing w with
  | zero =>
    intro g hg hlt
    simp only [pow_zero, Nat.one_mul]
    exact even_part_odd w g hg (by simpa using hlt)
  | succ c ih =>
    intro g hg hlt
    have hgpos : 0 < g := by omega
    have he : 2 ^ (c + 1) * g = 2 * (2 ^ c * g) := by ring
    have hpos : 0 < 2 ^ c * g := by positivity
    have hw : 1 ≤ w := by
      rcases Nat.eq_zero_or_pos w with h | h
      · subst h
        simp at hlt
        omega
      · exact h
    have hpow : 2 ^ w = 2 * 2 ^ (w - 1) := by
      rw [← pow_succ']
      congr 1
      omega
    rw [he, even_part_double w _ hpos (by omega), ih (w - 1) g hg (by omega)]
    ring

theorem odd_part_factor (w c g : Nat) (hg : g % 2 = 1) (hlt : 2 ^ c * g < 2 ^ w) :
    odd_part w (2 ^ c * g) = g := by
  unfold odd_part
  rw [even_part_factor w c g hg hlt, Nat.mul_div_cancel_left g (Nat.two_pow_pos c)]

theorem exp2_factor (w c g : Nat) (hg : g % 2 = 1) (hlt : 2 ^ c * g < 2 ^ w) :
    exp2 w (2 ^ c * g) = c := by
  unfold exp2
  rw [even_part_factor w c g hg hlt, flog2_two_pow]

end QM
namespace QM

theorem mshift_mono_iff (M s A B : Nat) (hM : 2 ^ s ≤ M) :
    (M * A / 2 ^ s < M * B / 2 ^ s ↔ A < B)
    ∧ (M * A / 2 ^ s = M * B / 2 ^ s ↔ A = B) := by
  constructor
  · constructor
    · intro h
      by_contra hc
      rcases Nat.lt_or_ge B A with h1 | h1
      · exact absurd (mshift_mono M s B A hM h1) (by omega)
      · have : A = B := by omega
        subst this
        omega
    · exact mshift_mono M s A B hM
  · constructor
    · intro h
      by_contra hc
      rcases Nat.lt_or_ge A B with h1 | h1
      · exact absurd (mshift_mono M s A B hM h1) (by omega)
      · have h2 : B < A := by omega
        exact absurd (mshift_mono M s B A hM h2) (by omega)
    · intro h
      rw [h]

theorem mshift_e_ge_M (w d : Nat) (hd : 2 ≤ d) (hdw : d < 2 ^ w)
    (hnp : is_power_of_2 d = false)
    (heM : ceil_sup_divided_by w d ≤ d - 2 ^ w % d) :
    (mshift.create w d).max_dividend = 0 := by
  obtain ⟨hM, he1, hed⟩ := mshift_Me w d hd hdw hnp
  have hcl := ceil_log2_spec d (by omega)
  have hW := Nat.two_pow_pos w
  have hmax : (mshift.create w d).max_dividend
      = (if ceil_log2 d = w then 0
         else if umax w / (d - remainder_sup_divided_by w d) < d - 1 then 0
         else (if umax w / (d - remainder_sup_divided_by w d) = d - 1
               then umax w / (d - remainder_sup_divided_by w d)
               else umax w / (d - remainder_sup_divided_by w d)
                 - umax w / (d - remainder_sup_divided_by w d) % d - 1)
              / 2 ^ ceil_log2 d) := rfl
  rw [rem_sup_eq w d (by omega) hdw] at hmax
  by_cases hpw : ceil_log2 d = w
  · rw [if_pos hpw] at hmax
    exact hmax
  · rw [if_neg hpw] at hmax
    have hMd : ceil_sup_divided_by w d * d ≤ (d - 2 ^ w % d) * d :=
      Nat.mul_le_mul_right d heM
    have ha : umax w / (d - 2 ^ w % d) < d := by
      rw [Nat.div_lt_iff_lt_mul (by omega)]
      unfold umax
      have hdd : (d - 2 ^ w % d) * d = d * (d - 2 ^ w % d) := Nat.mul_comm _ _
      omega
    by_cases hlt : umax w / (d - 2 ^ w % d) < d - 1
    · rw [if_pos hlt] at hmax
      exact hmax
    · rw [if_neg hlt] at hmax
      have hae : umax w / (d - 2 ^ w % d) = d - 1 := by omega
      rw [if_pos hae, hae] at hmax
      rw [hmax]
      exact Nat.div_eq_of_lt (by omega)

theorem mshift_no_wrap (w d y : Nat) (hd : 2 ≤ d) (hdw : d < 2 ^ w)
    (hnp : is_power_of_2 d = false) (hy : y < d)
    (hy2 : y ≤ (mshift.create w d).max_dividend + 1) :
    ceil_sup_divided_by w d * y < 2 ^ w := by
  obtain ⟨hM, he1, hed⟩ := mshift_Me w d hd hdw hnp
  have hw1 : 1 ≤ w := by
    by_contra hh
    have hw0 : w = 0 := by omega
    subst hw0
    simp at hdw
    omega
  have hMlt : ceil_sup_divided_by w d < 2 ^ w := by
    rw [ceil_sup_raw w d hd hw1]
    have h1 : (2 ^ w - 1) / d ≤ (2 ^ w - 1) / 2 := Nat.div_le_div_left hd (by omega)
    have h2 : (2 ^ w - 1) / 2 ≤ (2 ^ w - 1) := Nat.div_le_self _ _
    have h3 : 2 ^ w = 2 ^ (w - 1) * 2 := by rw [← pow_succ]; congr 1; omega
    have h4 : (2 ^ w - 1) / 2 = 2 ^ (w - 1) - 1 :=
      h3 ▸ mul_sub_one_div (by omega) (Nat.two_pow_pos (w - 1))
    have h5 := Nat.two_pow_pos (w - 1)
    omega
  rcases Nat.lt_or_ge (d - 2 ^ w % d) (ceil_sup_divided_by w d) with heM | heM
  · have h1 : ceil_sup_divided_by w d * y ≤ ceil_sup_divided_by w d * (d - 1) :=
      Nat.mul_le_mul_left _ (by omega)
    have h2 : ceil_sup_divided_by w d * (d - 1) + ceil_sup_divided_by w d
        = ceil_sup_divided_by w d * d := by
      have h3 : ceil_sup_divided_by w d * (d - 1 + 1) = ceil_sup_divided_by w d * (d - 1)
          + ceil_sup_divided_by w d := by ring
      have h4 : d - 1 + 1 = d := by omega
      rw [h4] at h3
      omega
    omega
  · have hmz := mshift_e_ge_M w d hd hdw hnp heM
    rw [hmz] at hy2
    have h1 : ceil_sup_divided_by w d * y ≤ ceil_sup_divided_by w d * 1 :=
      Nat.mul_le_mul_left _ (by omega)
    omega

theorem mshift_mapped_small (w d y : Nat) (hd : 2 ≤ d) (hdw : d < 2 ^ w)
    (hnp : is_power_of_2 d = false) (hy : y < d)
    (hy2 : y ≤ (mshift.create w d).max_dividend + 1) :
    mshift.mapped_remainder w (mshift.create w d) y
      = ceil_sup_divided_by w d * y / 2 ^ (w - ceil_log2 d) := by
  have hcl := ceil_log2_spec d (by omega)
  have hplew := ceil_log2_le w d (by omega) hdw
  have hp1 : 1 ≤ ceil_log2 d := by
    by_contra hh
    have h0 : ceil_log2 d = 0 := by omega
    rw [h0] at hcl
    simp at hcl
    omega
  unfold mshift.mapped_remainder rshift tmul
  rw [mshift_create_mult, mshift_create_shift]
  rw [if_pos (by omega : w - ceil_log2 d < w)]
  rw [Nat.mod_eq_of_lt (mshift_no_wrap w d y hd hdw hnp hy hy2)]

theorem mshift_cmp (w d n y : Nat) (hd : 0 < d) (hdw : d < 2 ^ w)
    (hn : n ≤ (mshift.create w d).max_dividend) (hy : y < d)
    (hy2 : y ≤ (mshift.create w d).max_dividend + 1) :
    (mshift.mapped_remainder w (mshift.create w d) n
        < mshift.mapped_remainder w (mshift.create w d) y ↔ n % d < y)
    ∧ (mshift.mapped_remainder w (mshift.create w d) n
        = mshift.mapped_remainder w (mshift.create w d) y ↔ n % d = y) := by
  rcases Nat.lt_or_ge d 2 with hd1 | hd2
  · have hd1' : d = 1 := by omega
    subst hd1'
    have hy0 : y = 0 := by omega
    subst hy0
    rw [mshift_mapped_one, mshift_mapped_one, Nat.mod_one]
    omega
  by_cases hp : is_power_of_2 d = true
  · obtain ⟨k, rfl⟩ := is_power_of_2_iff.mp hp
    have hk1 : 1 ≤ k := by
      rcases Nat.eq_zero_or_pos k with h0 | h0
      · subst h0; norm_num at hd2
      · exact h0
    have hkw : k < w := (Nat.pow_lt_pow_iff_right (by norm_num)).mp hdw
    rw [mshift_mapped_pow2 w k n hk1 hkw, mshift_mapped_pow2 w k y hk1 hkw,
      Nat.mod_eq_of_lt hy]
    omega
  · have hp2 : is_power_of_2 d = false := Bool.eq_false_iff.mpr hp
    rw [mshift_char w d n hd2 hdw hp2 hn, mshift_mapped_small w d y hd2 hdw hp2 hy hy2]
    exact mshift_mono_iff _ _ _ _ (mshift_mult_ge w d hd2 hdw hp2)

theorem mshift_maxdiv_le (w d : Nat) : (mshift.create w d).max_dividend ≤ umax w := by
  have hmax : (mshift.create w d).max_dividend
      = (if ceil_log2 d = w then 0
         else if umax w / (d - remainder_sup_divided_by w d) < d - 1 then 0
         else (if umax w / (d - remainder_sup_divided_by w d) = d - 1
               then umax w / (d - remainder_sup_divided_by w d)
               else umax w / (d - remainder_sup_divided_by w d)
                 - umax w / (d - remainder_sup_divided_by w d) % d - 1)
              / 2 ^ ceil_log2 d) := rfl
  rw [hmax]
  have h1 : umax w / (d - remainder_sup_divided_by w d) ≤ umax w := Nat.div_le_self _ _
  have h2 : (if umax w / (d - remainder_sup_divided_by w d) = d - 1
               then umax w / (d - remainder_sup_divided_by w d)
               else umax w / (d - remainder_sup_divided_by w d)
                 - umax w / (d - remainder_sup_divided_by w d) % d - 1)
              / 2 ^ ceil_log2 d ≤ umax w := by
    have h3 : (if umax w / (d - remainder_sup_divided_by w d) = d - 1
               then umax w / (d - remainder_sup_divided_by w d)
               else umax w / (d - remainder_sup_divided_by w d)
                 - umax w / (d - remainder_sup_divided_by w d) % d - 1)
        ≤ umax w := by split <;> omega
    have h4 := Nat.div_le_self (if umax w / (d - remainder_sup_divided_by w d) = d - 1
               then umax w / (d - remainder_sup_divided_by w d)
               else umax w / (d - remainder_sup_divided_by w d)
                 - umax w / (d - remainder_sup_divided_by w d) % d - 1) (2 ^ ceil_log2 d)
    omega
  split
  · omega
  · split
    · omega
    · exact h2

theorem mshift_ops_correct (w d n r : Nat) (hd : 0 < d) (hdw : d < 2 ^ w)
    (hn : n ≤ (mshift.create w d).max_dividend)
    (hr : r ≤ mshift.plain_max_remainder w d) :
    mshift.plain_has_remainder w d n r = built_in.has_remainder d n r
    ∧ mshift.plain_has_remainder_less w d n r = built_in.has_remainder_less d n r
    ∧ mshift.plain_has_remainder_greater_equal w d n r
        = built_in.has_remainder_greater_equal d n r
    ∧ (r ≠ umax w →
        mshift.plain_has_remainder_less_equal w d n r
            = built_in.has_remainder_less_equal d n r
        ∧ mshift.plain_has_remainder_greater w d n r
            = built_in.has_remainder_greater d n r) := by
  have hW := Nat.two_pow_pos w
  have hmr : mshift.plain_max_remainder w d = (mshift.create w d).max_dividend := rfl
  rw [hmr] at hr
  have hmod : n % d < d := Nat.mod_lt n hd
  have hless : ∀ y, y ≤ (mshift.create w d).max_dividend + 1 →
      mshift.plain_has_remainder_less w d n y = decide (n % d < y) := by
    intro y hy2
    unfold mshift.plain_has_remainder_less adaptors.relax_lt mshift.bc_has_remainder_less
    by_cases hyd : d ≤ y
    · rw [decide_eq_true hyd]
      simp only [Bool.true_or]
      exact (decide_eq_true (by omega : n % d < y)).symm
    · have hyd' : y < d := by omega
      rw [decide_eq_false (by omega : ¬ d ≤ y)]
      simp only [Bool.false_or]
      exact decide_eq_decide.mpr
        ((mshift_cmp w d n y hd hdw hn hyd' hy2).1)
  refine ⟨?_, ?_, ?_, ?_⟩
  · unfold mshift.plain_has_remainder adaptors.relax_eq mshift.bc_has_remainder
      built_in.has_remainder
    by_cases hrd : r < d
    · rw [decide_eq_true hrd]
      simp only [Bool.true_and]
      exact decide_eq_decide.mpr
        ((mshift_cmp w d n r hd hdw hn hrd (by omega)).2)
    · rw [decide_eq_false hrd]
      simp only [Bool.false_and]
      exact (decide_eq_false (by omega : ¬ n % d = r)).symm
  · rw [hless r (by omega)]
    rfl
  · unfold mshift.plain_has_remainder_greater_equal adaptors.extra_ge
      built_in.has_remainder_greater_equal
    rw [hless r (by omega)]
    rw [← decide_not]
    exact decide_eq_decide.mpr (by omega)
  · intro hru
    have hml := mshift_maxdiv_le w d
    have humax : umax w = 2 ^ w - 1 := rfl
    rw [humax] at hru hml
    have hr1 : r + 1 < 2 ^ w := by omega
    constructor
    · unfold mshift.plain_has_remainder_less_equal adaptors.extra_le
        built_in.has_remainder_less_equal
      rw [Nat.mod_eq_of_lt hr1, hless (r + 1) (by omega)]
      exact decide_eq_decide.mpr (by omega)
    · unfold mshift.plain_has_remainder_greater adaptors.extra_gt adaptors.extra_le
        built_in.has_remainder_greater
      rw [Nat.mod_eq_of_lt hr1]
      have h2 : mshift.plain_has_remainder_less w d n (r + 1) = decide (n % d < r + 1) :=
        hless (r + 1) (by omega)
      rw [h2, ← decide_not]
      exact decide_eq_decide.mpr (by omega)

end QM
namespace QM

theorem mcomp_Me (w d : Nat) (hd2 : 2 ≤ d) (hdw : d < 2 ^ w) :
    ceil_sup_divided_by w d * d = 2 ^ w + tmul w (ceil_sup_divided_by w d) d
    ∧ tmul w (ceil_sup_divided_by w d) d < d := by
  have hW := Nat.two_pow_pos w
  have hw1 : 1 ≤ w := by
    by_contra hh
    have hw0 : w = 0 := by omega
    subst hw0
    simp at hdw
    omega
  have hdm := Nat.div_add_mod (2 ^ w - 1) d
  have hmlt : (2 ^ w - 1) % d < d := Nat.mod_lt _ (by omega)
  have hprod : ((2 ^ w - 1) / d + 1) * d = (2 ^ w - 1) / d * d + d := by ring
  have hcomm : (2 ^ w - 1) / d * d = d * ((2 ^ w - 1) / d) := Nat.mul_comm _ _
  have hMd : ((2 ^ w - 1) / d + 1) * d = 2 ^ w + (d - 1 - (2 ^ w - 1) % d) := by omega
  have htm : tmul w ((2 ^ w - 1) / d + 1) d = d - 1 - (2 ^ w - 1) % d := by
    unfold tmul
    rw [hMd, Nat.add_mod_left]
    exact Nat.mod_eq_of_lt (by omega)
  have hcs : ceil_sup_divided_by w d = (2 ^ w - 1) / d + 1 := ceil_sup_raw w d hd2 hw1
  rw [hcs, htm]
  omega

theorem mcomp_kernel_eq (w M d e n r : Nat) (hd : 2 ≤ d) (hdw : d < 2 ^ w)
    (hn : n < 2 ^ w) (hr : r < d) (hMd : M * d = 2 ^ w + e) (heM : e < M)
    (hq : e * (n / d) + e + 1 ≤ M) :
    decide (tmul w M (tsub w n r) < M - e) = decide (n % d = r) := by
  have hW := Nat.two_pow_pos w
  have hM1 : 1 ≤ M := by omega
  have hMd1 : M * (d - 1) + M = M * d := by
    have h : M * (d - 1 + 1) = M * (d - 1) + M := by ring
    rw [show d - 1 + 1 = d by omega] at h
    omega
  unfold tmul tsub
  rcases Nat.lt_or_ge n r with hnr | hnr
  · -- n < r: the kernel subtraction wraps, the test is false, and n % d ≠ r
    have hx : (n + (2 ^ w - r)) % 2 ^ w = 2 ^ w - (r - n) := by
      rw [Nat.mod_eq_of_lt (by omega)]
      omega
    rw [hx]
    have hud : r - n ≤ d - 1 := by omega
    have hMu : M * (r - n) ≤ M * (d - 1) := Nat.mul_le_mul_left M hud
    have hMu1 : M ≤ M * (r - n) := Nat.le_mul_of_pos_right M (by omega)
    have hb2 : 2 ^ w * (M - 1) + 2 ^ w = 2 ^ w * M := by
      rw [← Nat.mul_succ]
      congr 1
      omega
    have hb3 : M * (2 ^ w - (r - n)) + M * (r - n) = M * 2 ^ w := by
      rw [← Nat.mul_add]
      congr 1
      omega
    have hb4 : M * 2 ^ w = 2 ^ w * M := Nat.mul_comm _ _
    have hA : M * (2 ^ w - (r - n)) = 2 ^ w * (M - 1) + (2 ^ w - M * (r - n)) := by
      omega
    rw [hA, Nat.mul_add_mod, Nat.mod_eq_of_lt (by omega)]
    have hnd : n % d = n := Nat.mod_eq_of_lt (by omega)
    rw [decide_eq_false (by omega : ¬ 2 ^ w - M * (r - n) < M - e),
      decide_eq_false (by omega : ¬ n % d = r)]
  · -- n ≥ r: exact subtraction
    have hx : (n + (2 ^ w - r)) % 2 ^ w = n - r := by
      have h1 : n + (2 ^ w - r) = (n - r) + 2 ^ w := by omega
      rw [h1, Nat.add_mod_right]
      exact Nat.mod_eq_of_lt (by omega)
    rw [hx]
    obtain ⟨q, t, htd, hqt⟩ : ∃ q t, t < d ∧ n - r = d * q + t :=
      ⟨(n - r) / d, (n - r) % d, Nat.mod_lt _ (by omega),
        ((Nat.div_add_mod (n - r) d).symm)⟩
    have hqn : q ≤ n / d := by
      rw [Nat.le_div_iff_mul_le (by omega : 0 < d)]
      have hc : q * d = d * q := Nat.mul_comm _ _
      omega
    have heq : e * q + e + 1 ≤ M := by
      have h1 : e * q ≤ e * (n / d) := Nat.mul_le_mul_left e hqn
      omega
    have hMt : M * t ≤ M * (d - 1) := Nat.mul_le_mul_left M (by omega)
    have hMx : M * (n - r) = 2 ^ w * q + (e * q + M * t) := by
      rw [hqt]
      have hb : M * (d * q + t) = M * d * q + M * t := by ring
      have hb2 : M * d * q = 2 ^ w * q + e * q := by rw [hMd]; ring
      omega
    have hsmall : e * q + M * t < 2 ^ w := by omega
    rw [hMx, Nat.mul_add_mod, Nat.mod_eq_of_lt hsmall]
    have hnd : n % d = (r + t) % d := by
      have hn_eq : n = d * q + (r + t) := by omega
      rw [hn_eq, Nat.mul_add_mod]
    have hrt : (r + t) % d = if r + t < d then r + t else r + t - d := by
      split
      · exact Nat.mod_eq_of_lt (by omega)
      · rw [Nat.mod_eq_sub_mod (by omega)]
        exact Nat.mod_eq_of_lt (by omega)
    rcases Nat.eq_zero_or_pos t with ht0 | ht1
    · subst ht0
      rw [decide_eq_true (by omega : e * q + M * 0 < M - e),
        decide_eq_true (by rw [hnd, hrt, if_pos (by omega : r + 0 < d)]; omega : n % d = r)]
    · have hMt1 : M ≤ M * t := Nat.le_mul_of_pos_right M ht1
      rw [decide_eq_false (by omega : ¬ e * q + M * t < M - e),
        decide_eq_false (by rw [hnd, hrt]; split <;> omega : ¬ n % d = r)]

theorem mcomp_kernel_less (w M d e n r : Nat) (hd : 2 ≤ d) (hdw : d < 2 ^ w)
    (hn : n < 2 ^ w) (hr : r < d) (hMd : M * d = 2 ^ w + e) (heM : e < M)
    (hq : e * (n / d) + e + 1 ≤ M) :
    decide (tmul w M n < tmul w M r) = decide (n % d < r) := by
  have hW := Nat.two_pow_pos w
  have hM1 : 1 ≤ M := by omega
  have hMd1 : M * (d - 1) + M = M * d := by
    have h : M * (d - 1 + 1) = M * (d - 1) + M := by ring
    rw [show d - 1 + 1 = d by omega] at h
    omega
  unfold tmul
  obtain ⟨q, t, htd, hqt⟩ : ∃ q t, t < d ∧ n = d * q + t :=
    ⟨n / d, n % d, Nat.mod_lt _ (by omega), ((Nat.div_add_mod n d).symm)⟩
  have hqn : q ≤ n / d := by
    rw [Nat.le_div_iff_mul_le (by omega : 0 < d)]
    have hc : q * d = d * q := Nat.mul_comm _ _
    omega
  have heq : e * q + e + 1 ≤ M := by
    have h1 : e * q ≤ e * (n / d) := Nat.mul_le_mul_left e hqn
    omega
  have hMt : M * t ≤ M * (d - 1) := Nat.mul_le_mul_left M (by omega)
  have hMr : M * r ≤ M * (d - 1) := Nat.mul_le_mul_left M (by omega)
  have hMx : M * n = 2 ^ w * q + (e * q + M * t) := by
    rw [hqt]
    have hb : M * (d * q + t) = M * d * q + M * t := by ring
    have hb2 : M * d * q = 2 ^ w * q + e * q := by rw [hMd]; ring
    omega
  have hsmall : e * q + M * t < 2 ^ w := by omega
  rw [hMx, Nat.mul_add_mod, Nat.mod_eq_of_lt hsmall,
    Nat.mod_eq_of_lt (by omega : M * r < 2 ^ w)]
  have hnd : n % d = t := by
    rw [hqt, Nat.mul_add_mod]
    exact Nat.mod_eq_of_lt htd
  rw [hnd]
  rcases Nat.lt_or_ge t r with htr | htr
  · have h1 : M * (t + 1) ≤ M * r := Nat.mul_le_mul_left M (by omega)
    have h2 : M * (t + 1) = M * t + M := by ring
    rw [decide_eq_true (by omega : e * q + M * t < M * r),
      decide_eq_true htr]
  · have h1 : M * r ≤ M * t := Nat.mul_le_mul_left M htr
    rw [decide_eq_false (by omega : ¬ e * q + M * t < M * r),
      decide_eq_false (by omega : ¬ t < r)]

end QM
namespace QM

theorem mcomp_create_d2 (w d : Nat) (hd2 : 2 ≤ d) :
    mcomp.create w d = ⟨d, ceil_sup_divided_by w d,
      (if tmul w (ceil_sup_divided_by w d) d < ceil_sup_divided_by w d
       then ceil_sup_divided_by w d - tmul w (ceil_sup_divided_by w d) d else 0),
      (if tmul w (ceil_sup_divided_by w d) d = 0 then umax w
       else if tmul w (ceil_sup_divided_by w d) d < ceil_sup_divided_by w d
       then (((if tmul w (ceil_sup_divided_by w d) d < ceil_sup_divided_by w d
               then ceil_sup_divided_by w d - tmul w (ceil_sup_divided_by w d) d
               else 0) - 1)
             / tmul w (ceil_sup_divided_by w d) d * d + d - 1) % 2 ^ w
       else 0)⟩ := by
  unfold mcomp.create
  rw [if_neg (by omega : ¬ d = 1)]

theorem mcomp_ops_correct (w d n r : Nat) (hd : 0 < d) (hdw : d < 2 ^ w)
    (hb : (mcomp.create w d).bound ≠ 0)
    (hn : n ≤ (mcomp.create w d).max_dividend)
    (hr : r ≤ mcomp.plain_max_remainder w d) :
    mcomp.plain_has_remainder w d n r = built_in.has_remainder d n r
    ∧ mcomp.plain_has_remainder_less w d n r = built_in.has_remainder_less d n r
    ∧ mcomp.plain_has_remainder_greater_equal w d n r
        = built_in.has_remainder_greater_equal d n r
    ∧ (r ≠ umax w →
        mcomp.plain_has_remainder_less_equal w d n r
            = built_in.has_remainder_less_equal d n r
        ∧ mcomp.plain_has_remainder_greater w d n r
            = built_in.has_remainder_greater d n r) := by
  have hW := Nat.two_pow_pos w
  have hw1 : 1 ≤ w := by
    by_contra hh
    have hw0 : w = 0 := by omega
    subst hw0
    simp at hdw
    omega
  rcases Nat.lt_or_ge d 2 with hd1 | hd2
  · -- d = 1
    have hd1' : d = 1 := by omega
    subst hd1'
    have hcr : mcomp.create w 1 = ⟨1, 0, 1, umax w⟩ := mcomp_create_one w
    have hmless : ∀ y, mcomp.plain_has_remainder_less w 1 n y = decide (n % 1 < y) := by
      intro y
      unfold mcomp.plain_has_remainder_less adaptors.relax_lt mcomp.has_remainder_less
      rw [hcr]
      rcases Nat.eq_zero_or_pos y with hy0 | hy1
      · subst hy0
        rw [decide_eq_false (by omega : ¬ (1 : Nat) ≤ 0)]
        simp only [Bool.false_or]
        rw [decide_eq_false (by omega : ¬ n % 1 < 0)]
        exact decide_eq_false (by
          show ¬ tmul w 0 n < tmul w 0 0
          unfold tmul
          simp)
      · rw [decide_eq_true (by omega : (1 : Nat) ≤ y)]
        simp only [Bool.true_or]
        rw [Nat.mod_one]
        exact (decide_eq_true hy1).symm
    refine ⟨?_, ?_, ?_, ?_⟩
    · unfold mcomp.plain_has_remainder adaptors.relax_eq mcomp.has_remainder
        built_in.has_remainder
      rw [hcr]
      rcases Nat.eq_zero_or_pos r with hr0 | hr1
      · subst hr0
        rw [decide_eq_true (by omega : 0 < 1), decide_eq_true (by omega : n % 1 = 0)]
        simp only [Bool.true_and]
        exact decide_eq_true (by
          show tmul w 0 (tsub w n 0) < 1
          unfold tmul
          simp)
      · rw [decide_eq_false (by omega : ¬ r < 1),
          decide_eq_false (by rw [Nat.mod_one]; omega : ¬ n % 1 = r)]
        simp
    · rw [hmless r]
      rfl
    · unfold mcomp.plain_has_remainder_greater_equal adaptors.extra_ge
        built_in.has_remainder_greater_equal
      rw [hmless r, ← decide_not]
      exact decide_eq_decide.mpr (by omega)
    · intro hru
      have humax : umax w = 2 ^ w - 1 := rfl
      have hrm : r ≤ umax w := by
        have : mcomp.plain_max_remainder w 1 = umax w := by
          unfold mcomp.plain_max_remainder
          rw [hcr]
        rw [← this]
        exact hr
      rw [humax] at hru hrm
      have hr1 : r + 1 < 2 ^ w := by omega
      constructor
      · unfold mcomp.plain_has_remainder_less_equal adaptors.extra_le
          built_in.has_remainder_less_equal
        rw [Nat.mod_eq_of_lt hr1, hmless (r + 1)]
        exact decide_eq_decide.mpr (by omega)
      · unfold mcomp.plain_has_remainder_greater adaptors.extra_gt adaptors.extra_le
          built_in.has_remainder_greater
        rw [Nat.mod_eq_of_lt hr1, hmless (r + 1), ← decide_not]
        exact decide_eq_decide.mpr (by omega)
  · -- d ≥ 2
    obtain ⟨hMd, hed⟩ := mcomp_Me w d hd2 hdw
    have hcr := mcomp_create_d2 w d hd2
    have hbv : (mcomp.create w d).bound
        = (if tmul w (ceil_sup_divided_by w d) d < ceil_sup_divided_by w d
           then ceil_sup_divided_by w d - tmul w (ceil_sup_divided_by w d) d else 0) := by
      rw [hcr]
    have heM : tmul w (ceil_sup_divided_by w d) d < ceil_sup_divided_by w d := by
      by_contra hh
      rw [hbv, if_neg hh] at hb
      exact hb rfl
    have hM1 : 1 ≤ ceil_sup_divided_by w d := by omega
    -- the validity-domain bound gives the kernel hypothesis
    have hmax : (mcomp.create w d).max_dividend
        = (if tmul w (ceil_sup_divided_by w d) d = 0 then umax w
           else (((ceil_sup_divided_by w d - tmul w (ceil_sup_divided_by w d) d) - 1)
             / tmul w (ceil_sup_divided_by w d) d * d + d - 1) % 2 ^ w) := by
      rw [hcr]
      rcases Nat.eq_zero_or_pos (tmul w (ceil_sup_divided_by w d) d) with he0 | he1
      · rw [if_pos he0, if_pos he0]
      · rw [if_neg (show ¬ tmul w (ceil_sup_divided_by w d) d = 0 by omega),
          if_neg (show ¬ tmul w (ceil_sup_divided_by w d) d = 0 by omega),
          if_pos heM, if_pos heM]
    have hkey : n < 2 ^ w ∧
        tmul w (ceil_sup_divided_by w d) d * (n / d)
          + tmul w (ceil_sup_divided_by w d) d + 1 ≤ ceil_sup_divided_by w d := by
      rcases Nat.eq_zero_or_pos (tmul w (ceil_sup_divided_by w d) d) with he0 | he1
      · rw [hmax, if_pos he0] at hn
        have : umax w = 2 ^ w - 1 := rfl
        rw [he0]
        constructor
        · omega
        · simp
          omega
      · rw [hmax, if_neg (show ¬ tmul w (ceil_sup_divided_by w d) d = 0 by omega)] at hn
        -- abbreviations
        obtain ⟨M, hMdef⟩ : ∃ M, ceil_sup_divided_by w d = M := ⟨_, rfl⟩
        obtain ⟨e, hedef⟩ : ∃ e, tmul w (ceil_sup_divided_by w d) d = e := ⟨_, rfl⟩
        rw [hedef] at hMd hed heM hn he1 ⊢
        rw [hMdef] at hMd heM hn ⊢
        obtain ⟨K, hKdef⟩ : ∃ K, (M - e - 1) / e = K := ⟨_, rfl⟩
        rw [hKdef] at hn
        have hKe : K * e ≤ M - e - 1 := by
          rw [← hKdef]
          exact Nat.div_mul_le_self _ _
        have hK1e : (K + 1) * e ≤ M - 1 := by
          have h : (K + 1) * e = K * e + e := by ring
          omega
        have hKd : (K + 1) * d ≤ 2 ^ w := by
          by_contra hh
          have h1 : (K + 1) * d * e ≥ (2 ^ w + 1) * e := by
            have := Nat.mul_le_mul_right e (by omega : 2 ^ w + 1 ≤ (K + 1) * d)
            omega
          have h2 : (K + 1) * e * d ≤ (M - 1) * d := Nat.mul_le_mul_right d hK1e
          have h3 : (K + 1) * e * d = (K + 1) * d * e := by ring
          have h4 : (M - 1) * d + d = M * d := by
            have h : (M - 1 + 1) * d = (M - 1) * d + d := by ring
            rw [show M - 1 + 1 = M by omega] at h
            omega
          have h5 : (2 ^ w + 1) * e = 2 ^ w * e + e := by ring
          have h6 : 2 ^ w * 1 ≤ 2 ^ w * e := Nat.mul_le_mul_left _ (by omega)
          omega
        have hmaxv : (K * d + d - 1) % 2 ^ w = K * d + d - 1 := by
          apply Nat.mod_eq_of_lt
          have h : (K + 1) * d = K * d + d := by ring
          omega
        rw [hmaxv] at hn
        have hnq : n / d ≤ K := by
          have h1 : n < (K + 1) * d := by
            have h : (K + 1) * d = K * d + d := by ring
            omega
          have h2 : n / d < K + 1 := by
            rw [Nat.div_lt_iff_lt_mul (by omega : 0 < d)]
            omega
          omega
        have heq : e * (n / d) ≤ e * K := Nat.mul_le_mul_left e hnq
        have heK : e * K = K * e := Nat.mul_comm _ _
        constructor
        · have h : (K + 1) * d = K * d + d := by ring
          omega
        · omega
    obtain ⟨hnw, hq⟩ := hkey
    have hbnd : (mcomp.create w d).bound
        = ceil_sup_divided_by w d - tmul w (ceil_sup_divided_by w d) d := by
      rw [hbv, if_pos heM]
    have hmult : (mcomp.create w d).multiplier = ceil_sup_divided_by w d := by
      rw [hcr]
    have hless : ∀ y, mcomp.plain_has_remainder_less w d n y = decide (n % d < y) := by
      intro y
      unfold mcomp.plain_has_remainder_less adaptors.relax_lt mcomp.has_remainder_less
      by_cases hyd : d ≤ y
      · rw [decide_eq_true hyd]
        simp only [Bool.true_or]
        exact (decide_eq_true (by
          have := Nat.mod_lt n (by omega : 0 < d)
          omega : n % d < y)).symm
      · rw [decide_eq_false hyd]
        simp only [Bool.false_or]
        rw [hmult]
        exact mcomp_kernel_less w (ceil_sup_divided_by w d) d
          (tmul w (ceil_sup_divided_by w d) d) n y hd2 hdw hnw (by omega) hMd heM hq
    refine ⟨?_, ?_, ?_, ?_⟩
    · unfold mcomp.plain_has_remainder adaptors.relax_eq mcomp.has_remainder
        built_in.has_remainder
      by_cases hrd : r < d
      · rw [decide_eq_true hrd]
        simp only [Bool.true_and]
        rw [hmult, hbnd]
        exact mcomp_kernel_eq w (ceil_sup_divided_by w d) d
          (tmul w (ceil_sup_divided_by w d) d) n r hd2 hdw hnw hrd hMd heM hq
      · rw [decide_eq_false hrd]
        simp only [Bool.false_and]
        exact (decide_eq_false (by
          have := Nat.mod_lt n (by omega : 0 < d)
          omega : ¬ n % d = r)).symm
    · rw [hless r]
      rfl
    · unfold mcomp.plain_has_remainder_greater_equal adaptors.extra_ge
        built_in.has_remainder_greater_equal
      rw [hless r, ← decide_not]
      exact decide_eq_decide.mpr (by omega)
    · intro hru
      have humax : umax w = 2 ^ w - 1 := rfl
      have hrm : r < 2 ^ w := by
        have h1 : r ≤ (mcomp.create w d).max_dividend := hr
        rw [hmax] at h1
        split at h1
        · have : umax w = 2 ^ w - 1 := rfl
          omega
        · have := Nat.mod_lt
            ((ceil_sup_divided_by w d - tmul w (ceil_sup_divided_by w d) d - 1)
              / tmul w (ceil_sup_divided_by w d) d * d + d - 1) (hW)
          omega
      rw [humax] at hru
      have hr1 : r + 1 < 2 ^ w := by omega
      constructor
      · unfold mcomp.plain_has_remainder_less_equal adaptors.extra_le
          built_in.has_remainder_less_equal
        rw [Nat.mod_eq_of_lt hr1, hless (r + 1)]
        exact decide_eq_decide.mpr (by omega)
      · unfold mcomp.plain_has_remainder_greater adaptors.extra_gt adaptors.extra_le
          built_in.has_remainder_greater
        rw [Nat.mod_eq_of_lt hr1, hless (r + 1), ← decide_not]
        exact decide_eq_decide.mpr (by omega)

end QM
namespace QM

theorem lor_high (k A B : Nat) (hA : A < 2 ^ k) : A ||| 2 ^ k * B = A + 2 ^ k * B := by
  have hs : 2 ^ k * B = B <<< k := by rw [Nat.shiftLeft_eq]; ring
  apply Nat.eq_of_testBit_eq
  intro i
  rw [Nat.testBit_or, hs, Nat.testBit_shiftLeft]
  by_cases hik : i < k
  · have h1 : ¬ k ≤ i := by omega
    simp only [decide_eq_false h1, Bool.false_and, Bool.or_false]
    rw [Nat.testBit_to_div_mod, Nat.testBit_to_div_mod]
    congr 1
    have h2 : B <<< k = B * 2 ^ (k - i) * 2 ^ i := by
      rw [Nat.shiftLeft_eq, mul_assoc, ← pow_add]
      congr 2
      omega
    rw [h2, Nat.add_mul_div_right _ _ (Nat.two_pow_pos i)]
    have h3 : B * 2 ^ (k - i) = B * 2 ^ (k - i - 1) * 2 := by
      rw [mul_assoc, ← pow_succ]
      congr 2
      omega
    rw [h3, Nat.add_mul_mod_self_right]
  · have h1 : k ≤ i := by omega
    have hA0 : A / 2 ^ i = 0 :=
      Nat.div_eq_of_lt (lt_of_lt_of_le hA (Nat.pow_le_pow_right (by norm_num) h1))
    have hAbit : A.testBit i = false := by
      rw [Nat.testBit_to_div_mod, hA0]
      simp
    simp only [hAbit, decide_eq_true h1, Bool.true_and, Bool.false_or]
    rw [Nat.testBit_to_div_mod, Nat.testBit_to_div_mod, Nat.shiftLeft_eq]
    congr 2
    have h2 : 2 ^ i = 2 ^ k * 2 ^ (i - k) := by
      rw [← pow_add]
      congr 1
      omega
    have h3 : (A + B * 2 ^ k) / 2 ^ k = B := by
      rw [Nat.add_mul_div_right _ _ (Nat.two_pow_pos k), Nat.div_eq_of_lt hA]
      omega
    rw [h2, ← Nat.div_div_eq_div_mul, h3]

theorem rrotate_c0 (w v : Nat) (hw : 0 < w) : rrotate w v 0 = v := by
  unfold rrotate
  simp [Nat.mod_eq_of_lt hw]

theorem rrotate_pos (w v c : Nat) (hc1 : 1 ≤ c) (hcw : c < w) (hv : v < 2 ^ w) :
    rrotate w v c = v / 2 ^ c + 2 ^ (w - c) * (v % 2 ^ c) := by
  unfold rrotate
  have hcmod : c % w = c := Nat.mod_eq_of_lt hcw
  simp only [hcmod]
  rw [if_neg (by omega : ¬ c = 0)]
  have hps : 2 ^ w = 2 ^ (w - c) * 2 ^ c := by
    rw [← pow_add]
    congr 1
    omega
  have h2 : v * 2 ^ (w - c) % 2 ^ w = 2 ^ (w - c) * (v % 2 ^ c) := by
    have hcm : v * 2 ^ (w - c) = 2 ^ (w - c) * v := Nat.mul_comm _ _
    rw [hcm, hps, Nat.mul_mod_mul_left]
  rw [h2]
  have hdlt : v / 2 ^ c < 2 ^ (w - c) := by
    rw [Nat.div_lt_iff_lt_mul (Nat.two_pow_pos c)]
    omega
  exact lor_high (w - c) (v / 2 ^ c) (v % 2 ^ c) hdlt

theorem minverse_count (w d r E : Nat) (hd : 2 ≤ d) (hdw : d < 2 ^ w) (hr : r < d)
    (hE : E = 2 ^ w / d + (if r < 2 ^ w % d then 1 else 0)) :
    1 ≤ E ∧ r + d * (E - 1) < 2 ^ w ∧ 2 ^ w ≤ r + d * E := by
  have hW := Nat.two_pow_pos w
  have hdm := Nat.div_add_mod (2 ^ w) d
  have hmlt : 2 ^ w % d < d := Nat.mod_lt _ (by omega)
  have hq1 : 1 ≤ 2 ^ w / d := (Nat.one_le_div_iff (by omega)).mpr (by omega)
  obtain ⟨Q, hQ⟩ : ∃ Q, 2 ^ w / d = Q + 1 := ⟨2 ^ w / d - 1, by omega⟩
  rw [hQ] at hE hdm
  have hb1 : d * (Q + 1) = d * Q + d := by ring
  have hb2 : d * (Q + 2) = d * Q + 2 * d := by ring
  split at hE
  · have hE1 : E - 1 = Q + 1 := by omega
    have hE2 : E = Q + 2 := by omega
    rw [hE1, hE2]
    omega
  · have hE1 : E - 1 = Q := by omega
    have hE2 : E = Q + 1 := by omega
    rw [hE1, hE2]
    omega

theorem tsub_residue (w d n r E : Nat) (hd : 1 ≤ d) (hn : n < 2 ^ w) (hr : r < d)
    (hE1 : 1 ≤ E) (hEa : r + d * (E - 1) < 2 ^ w) (hEb : 2 ^ w ≤ r + d * E) :
    (n % d = r ↔ ∃ j, j < E ∧ tsub w n r = d * j) := by
  have hW := Nat.two_pow_pos w
  unfold tsub
  constructor
  · intro h
    have hdm := Nat.div_add_mod n d
    refine ⟨n / d, ?_, ?_⟩
    · have hlt : d * (n / d) < d * E := by omega
      exact Nat.lt_of_mul_lt_mul_left hlt
    · have h1 : n + (2 ^ w - r) = d * (n / d) + 2 ^ w := by omega
      rw [h1, Nat.add_mod_right]
      apply Nat.mod_eq_of_lt
      omega
  · rintro ⟨j, hj, hx⟩
    have hdj : d * j ≤ d * (E - 1) := Nat.mul_le_mul_left d (by omega)
    rcases Nat.lt_or_ge n r with hnr | hnr
    · rw [Nat.mod_eq_of_lt (by omega : n + (2 ^ w - r) < 2 ^ w)] at hx
      omega
    · have h1 : n + (2 ^ w - r) = (n - r) + 2 ^ w := by omega
      rw [h1, Nat.add_mod_right, Nat.mod_eq_of_lt (by omega : n - r < 2 ^ w)] at hx
      have hn_eq : n = d * j + r := by omega
      rw [hn_eq, Nat.mul_add_mod]
      exact Nat.mod_eq_of_lt hr

theorem minverse_equiv_val (w d r : Nat) (hw : 2 ≤ w) (hd : 2 ≤ d) (hdw : d < 2 ^ w)
    (hr : r < d) :
    minverse.equivalents w (minverse.create w d) r
      = 2 ^ w / d + (if r < 2 ^ w % d then 1 else 0) := by
  have hW := Nat.two_pow_pos w
  have hQ : (minverse.create w d).quotient_sup = floor_sup_divided_by w d := rfl
  have hR : (minverse.create w d).remainder_sup = remainder_sup_divided_by w d := rfl
  have hQle : 2 ^ w / d ≤ 2 ^ (w - 1) := by
    have h1 : 2 ^ w / d ≤ 2 ^ w / 2 := Nat.div_le_div_left hd (by omega)
    have h2 : 2 ^ w = 2 * 2 ^ (w - 1) := by
      rw [← pow_succ']
      congr 1
      omega
    have h4 : 2 ^ w / 2 = 2 ^ (w - 1) := by
      rw [h2]
      exact Nat.mul_div_cancel_left _ (by norm_num)
    rw [h4] at h1
    exact h1
  have hpw : 2 ^ (w - 1) + 1 < 2 ^ w := by
    have h2 : 2 ^ w = 2 * 2 ^ (w - 1) := by
      rw [← pow_succ']
      congr 1
      omega
    have h3 : 2 ≤ 2 ^ (w - 1) :=
      le_trans (by norm_num) (Nat.pow_le_pow_right (by norm_num) (by omega : 1 ≤ w - 1))
    omega
  unfold minverse.equivalents tadd
  rw [hQ, hR, floor_sup_eq w d (by omega) hdw, rem_sup_eq w d (by omega) hdw,
    Nat.mod_eq_of_lt (by omega : 2 ^ w / d < 2 ^ w)]
  apply Nat.mod_eq_of_lt
  split <;> omega

end QM
namespace QM

set_option maxHeartbeats 2000000 in
theorem minverse_has_rem (w d n r : Nat) (hw5 : 5 ≤ w) (hw80 : w ≤ 80)
    (hd : 2 ≤ d) (hdw : d < 2 ^ w) (hn : n < 2 ^ w) (hr : r < d) :
    minverse.has_remainder w (minverse.create w d) n r = decide (n % d = r) := by
  have hW := Nat.two_pow_pos w
  obtain ⟨c, g, hgodd, hfac⟩ := exists_odd_factorization d (by omega)
  have hg1 : 1 ≤ g := by omega
  have hcw : c < w := by
    have h1 : 2 ^ c ≤ 2 ^ c * g := Nat.le_mul_of_pos_right _ (by omega)
    have h2 : 2 ^ c < 2 ^ w := by omega
    exact (Nat.pow_lt_pow_iff_right (by norm_num)).mp h2
  have hps : 2 ^ w = 2 ^ c * 2 ^ (w - c) := by
    rw [← pow_add]
    congr 1
    omega
  have hgw : g < 2 ^ (w - c) := by
    have h1 : 2 ^ c * g < 2 ^ c * 2 ^ (w - c) := by omega
    exact Nat.lt_of_mul_lt_mul_left h1
  -- create fields
  have hmult : (minverse.create w d).multiplier = modular_inverse w g := by
    show modular_inverse w (odd_part w d) = modular_inverse w g
    rw [hfac, odd_part_factor w c g hgodd (by omega)]
  have hrota : (minverse.create w d).rotation = c := by
    show exp2 w d = c
    rw [hfac]
    exact exp2_factor w c g hgodd (by omega)
  obtain ⟨m, hmdef⟩ : ∃ m, modular_inverse w g = m := ⟨_, rfl⟩
  have hm : g * m % 2 ^ w = 1 % 2 ^ w := by
    rw [← hmdef]
    exact modular_inverse_spec w g hw5 hw80 hgodd
  have hmq : Nat.ModEq (2 ^ w) (g * m) 1 := hm
  have hmc : Nat.ModEq (2 ^ c) (g * m) 1 :=
    hmq.of_dvd (pow_dvd_pow 2 (by omega))
  have hmwc : Nat.ModEq (2 ^ (w - c)) (g * m) 1 :=
    hmq.of_dvd (pow_dvd_pow 2 (by omega))
  -- the equivalents count and its properties
  obtain ⟨E, hEdef⟩ : ∃ E, minverse.equivalents w (minverse.create w d) r = E := ⟨_, rfl⟩
  have hEval : E = 2 ^ w / d + (if r < 2 ^ w % d then 1 else 0) := by
    rw [← hEdef]
    exact minverse_equiv_val w d r (by omega) hd hdw hr
  obtain ⟨hE1, hEa, hEb⟩ := minverse_count w d r E hd hdw hr hEval
  have hElt : E < 2 ^ w := by
    have h1 : 2 ^ w / d ≤ 2 ^ w / 2 := Nat.div_le_div_left hd (by omega)
    have h2 : 2 ^ w = 2 * 2 ^ (w - 1) := by
      rw [← pow_succ']
      congr 1
      omega
    have h4 : 2 ^ w / 2 = 2 ^ (w - 1) := by
      rw [h2]
      exact Nat.mul_div_cancel_left _ (by norm_num)
    rw [h4] at h1
    have h5 : 2 ≤ 2 ^ (w - 1) :=
      le_trans (by norm_num) (Nat.pow_le_pow_right (by norm_num) (by omega : 1 ≤ w - 1))
    rw [hEval]
    split <;> omega
  have hgE : g * (E - 1) < 2 ^ (w - c) := by
    have h1 : d * (E - 1) < 2 ^ w := by omega
    rw [hfac] at h1
    have h2 : 2 ^ c * g * (E - 1) = 2 ^ c * (g * (E - 1)) := by ring
    rw [h2] at h1
    rw [hps] at h1
    exact Nat.lt_of_mul_lt_mul_left h1
  have hE2 : E ≤ 2 ^ (w - c) := by
    have h1 : E - 1 ≤ g * (E - 1) := Nat.le_mul_of_pos_left _ (by omega)
    omega
  -- the kernel value
  obtain ⟨x, hxdef⟩ : ∃ x, tsub w n r = x := ⟨_, rfl⟩
  have hxlt : x < 2 ^ w := by
    rw [← hxdef]
    unfold tsub
    exact Nat.mod_lt _ (by omega)
  have hset : n % d = r ↔ ∃ j, j < E ∧ x = d * j := by
    rw [← hxdef]
    exact tsub_residue w d n r E (by omega) hn hr hE1 hEa hEb
  have htE : tsub w E 1 = E - 1 := by
    unfold tsub
    have h1 : E + (2 ^ w - 1) = (E - 1) + 2 ^ w := by omega
    rw [h1, Nat.add_mod_right]
    exact Nat.mod_eq_of_lt (by omega)
  have hker : minverse.has_remainder w (minverse.create w d) n r
      = decide (rrotate w (tmul w m x) c ≤ E - 1) := by
    unfold minverse.has_remainder
    rw [hmult, hmdef, hrota, hxdef, hEdef, htE]
  rw [hker]
  obtain ⟨v, hvdef⟩ : ∃ v, tmul w m x = v := ⟨_, rfl⟩
  have hvval : v = m * x % 2 ^ w := by rw [← hvdef]; rfl
  have hvlt : v < 2 ^ w := by rw [hvval]; exact Nat.mod_lt _ (by omega)
  rw [hvdef]
  by_cases hxc : x % 2 ^ c = 0
  · -- x is divisible by 2^c: the rotation is exact
    obtain ⟨y, hxy⟩ : ∃ y, x = 2 ^ c * y := Nat.dvd_of_mod_eq_zero hxc
    have hylt : y < 2 ^ (w - c) := by
      have h1 : 2 ^ c * y < 2 ^ c * 2 ^ (w - c) := by omega
      exact Nat.lt_of_mul_lt_mul_left h1
    obtain ⟨u, hudef⟩ : ∃ u, m * y % 2 ^ (w - c) = u := ⟨_, rfl⟩
    have hult : u < 2 ^ (w - c) := by
      rw [← hudef]
      exact Nat.mod_lt _ (Nat.two_pow_pos _)
    have hveq : v = 2 ^ c * u := by
      rw [hvval, hxy, ← hudef]
      have h1 : m * (2 ^ c * y) = 2 ^ c * (m * y) := by ring
      rw [h1, hps, Nat.mul_mod_mul_left]
    have hrot : rrotate w v c = u := by
      rcases Nat.eq_zero_or_pos c with hc0 | hc1
      · subst hc0
        rw [rrotate_c0 w v (by omega), hveq]
        simp
      · rw [rrotate_pos w v c hc1 hcw hvlt, hveq, Nat.mul_mod_right,
          Nat.mul_div_cancel_left _ (Nat.two_pow_pos c)]
        simp
    rw [hrot]
    -- u < E iff x lies in the valid multiples of d
    have hiff : u < E ↔ ∃ j, j < E ∧ x = d * j := by
      constructor
      · intro huE
        refine ⟨u, huE, ?_⟩
        have hgu : g * u % 2 ^ (w - c) = y % 2 ^ (w - c) := by
          have h1 : Nat.ModEq (2 ^ (w - c)) (m * y % 2 ^ (w - c)) (m * y) :=
            Nat.mod_modEq _ _
          have h2 : Nat.ModEq (2 ^ (w - c)) (g * (m * y % 2 ^ (w - c))) (g * (m * y)) :=
            Nat.ModEq.mul_left g h1
          have h3 : Nat.ModEq (2 ^ (w - c)) (g * m * y) (1 * y) :=
            Nat.ModEq.mul_right y hmwc
          have h4 : g * (m * y) = g * m * y := by ring
          have h5 : Nat.ModEq (2 ^ (w - c)) (g * u) y := by
            rw [← hudef]
            calc g * (m * y % 2 ^ (w - c))
                ≡ g * (m * y) [MOD 2 ^ (w - c)] := h2
              _ = g * m * y := h4
              _ ≡ 1 * y [MOD 2 ^ (w - c)] := h3
              _ = y := one_mul y
          exact h5
        have hgu2 : g * u < 2 ^ (w - c) := by
          have h1 : g * u ≤ g * (E - 1) := Nat.mul_le_mul_left g (by omega)
          omega
        have hyu : g * u = y := by
          rw [Nat.mod_eq_of_lt hgu2, Nat.mod_eq_of_lt hylt] at hgu
          exact hgu
        rw [hxy, ← hyu, hfac]
        ring
      · rintro ⟨j, hjE, hxj⟩
        have hyj : y = g * j := by
          rw [hfac] at hxj
          have h1 : 2 ^ c * g * j = 2 ^ c * (g * j) := by ring
          rw [h1] at hxj
          rw [hxy] at hxj
          exact Nat.eq_of_mul_eq_mul_left (Nat.two_pow_pos c) hxj
        have huj : u = j := by
          have h1 : Nat.ModEq (2 ^ (w - c)) (m * (g * j)) (1 * j) := by
            have h2 : m * (g * j) = g * m * j := by ring
            rw [h2]
            exact Nat.ModEq.mul_right j hmwc
          have h3 : u = m * (g * j) % 2 ^ (w - c) := by rw [← hudef, hyj]
          have h4 : m * (g * j) % 2 ^ (w - c) = (1 * j) % 2 ^ (w - c) := h1
          rw [h3, h4, one_mul]
          exact Nat.mod_eq_of_lt (by omega)
        omega
    have hfin : (u ≤ E - 1) ↔ (n % d = r) := by
      rw [hset, ← hiff]
      omega
    exact decide_eq_decide.mpr hfin
  · -- x is not divisible by 2^c: the test fails and n % d ≠ r
    have hc1 : 1 ≤ c := by
      by_contra hh
      have hc0 : c = 0 := by omega
      rw [hc0, pow_zero, Nat.mod_one] at hxc
      exact hxc rfl
    have hvc : v % 2 ^ c = m * x % 2 ^ c := by
      rw [hvval]
      exact Nat.mod_mod_of_dvd _ (pow_dvd_pow 2 (by omega))
    have hvne : v % 2 ^ c ≠ 0 := by
      intro h0
      rw [hvc] at h0
      have hdv : Nat.ModEq (2 ^ c) (m * x) 0 :=
        (Nat.modEq_zero_iff_dvd).mpr (Nat.dvd_of_mod_eq_zero h0)
      have h1 : Nat.ModEq (2 ^ c) (g * m * x) (1 * x) := Nat.ModEq.mul_right x hmc
      have h2 : Nat.ModEq (2 ^ c) (g * (m * x)) (g * 0) := Nat.ModEq.mul_left g hdv
      have h3 : Nat.ModEq (2 ^ c) x 0 := by
        calc x = 1 * x := (one_mul x).symm
          _ ≡ g * m * x [MOD 2 ^ c] := h1.symm
          _ = g * (m * x) := by ring
          _ ≡ g * 0 [MOD 2 ^ c] := h2
          _ = 0 := by ring
      have h4 : x % 2 ^ c = 0 := by
        have h5 := h3
        unfold Nat.ModEq at h5
        simpa using h5
      exact hxc h4
    have hv1 : 0 < v % 2 ^ c := Nat.pos_of_ne_zero hvne
    have hrge : 2 ^ (w - c) ≤ rrotate w v c := by
      rw [rrotate_pos w v c hc1 hcw hvlt]
      have h1 : 2 ^ (w - c) ≤ 2 ^ (w - c) * (v % 2 ^ c) :=
        Nat.le_mul_of_pos_right _ hv1
      exact le_trans h1 (Nat.le_add_left _ _)
    have hEle : E - 1 < 2 ^ (w - c) :=
      lt_of_lt_of_le (Nat.sub_lt (by omega) (by omega)) hE2
    have hlhs : ¬ (rrotate w v c ≤ E - 1) := fun hcon =>
      absurd (le_trans hrge hcon) (Nat.not_le.mpr hEle)
    have hrhs : ¬ (n % d = r) := by
      intro h
      obtain ⟨j, hjE, hxj⟩ := hset.mp h
      rw [hfac] at hxj
      have h1 : 2 ^ c * g * j = 2 ^ c * (g * j) := by ring
      rw [h1] at hxj
      rw [hxj, Nat.mul_mod_right] at hxc
      exact hxc rfl
    rw [decide_eq_false hlhs, decide_eq_false hrhs]

theorem minverse_ops_correct (w d n r : Nat) (hw5 : 5 ≤ w) (hw80 : w ≤ 80)
    (hd : 0 < d) (hdw : d < 2 ^ w) (hn : n ≤ umax w)
    (hr : r ≤ minverse.plain_max_remainder w d) :
    minverse.plain_has_remainder w d n r = built_in.has_remainder d n r := by
  have hW := Nat.two_pow_pos w
  have hnw : n < 2 ^ w := by
    have h : umax w = 2 ^ w - 1 := rfl
    omega
  unfold minverse.plain_has_remainder adaptors.relax_eq built_in.has_remainder
  by_cases hrd : r < d
  · rw [decide_eq_true hrd]
    simp only [Bool.true_and]
    rcases Nat.lt_or_ge d 2 with hd1 | hd2
    · have hd1' : d = 1 := by omega
      subst hd1'
      have hr0 : r = 0 := by omega
      subst hr0
      rw [minverse_create_one w (by omega)]
      have hkone : minverse.has_remainder w ⟨1, 1, 0, 0, 0, 0⟩ n 0 = true := by
        unfold minverse.has_remainder
        apply decide_eq_true
        have hrr : rrotate w (tmul w (1:Nat) (tsub w n 0)) 0 = tmul w 1 (tsub w n 0) :=
          rrotate_c0 w _ (by omega)
        rw [hrr]
        have h1 : tmul w 1 (tsub w n 0) < 2 ^ w := Nat.mod_lt _ (by omega)
        have h2 : minverse.equivalents w ⟨1, 1, 0, 0, 0, 0⟩ 0 = 0 := by
          unfold minverse.equivalents tadd
          simp
        rw [h2]
        have h3 : tsub w 0 1 = 2 ^ w - 1 := by
          unfold tsub
          rw [Nat.zero_add]
          exact Nat.mod_eq_of_lt (by omega)
        rw [h3]
        omega
      rw [hkone]
      exact (decide_eq_true (by rw [Nat.mod_one] : n % 1 = 0)).symm
    · exact minverse_has_rem w d n r hw5 hw80 hd2 hdw hnw hrd
  · rw [decide_eq_false hrd]
    simp only [Bool.false_and]
    exact (decide_eq_false (by
      have := Nat.mod_lt n (by omega : 0 < d)
      omega : ¬ n % d = r)).symm

end QM
namespace QM

theorem periodLoop_succ (w g f period power : Nat) :
    new_algo.periodLoop w g (f + 1) period power
      = if power = 1 then period
        else new_algo.periodLoop w g f (period + 1)
          (if g ≤ power * 2 % 2 ^ w then power * 2 % 2 ^ w - g
           else power * 2 % 2 ^ w) := by
  rw [new_algo.periodLoop]

theorem periodLoop_spec (w g : Nat) :
    ∀ fuel period power k l,
      power + g * k + 2 ^ w * l = 2 ^ period →
      period + fuel ≤ w + 1 → 1 ≤ period →
      new_algo.periodLoop w g fuel period power = 0 ∨
      (∃ k2, 1 + g * k2 = 2 ^ (new_algo.periodLoop w g fuel period power)
        ∧ period ≤ new_algo.periodLoop w g fuel period power
        ∧ new_algo.periodLoop w g fuel period power + 1 ≤ period + fuel) := by
  intro fuel
  induction fuel with
  | zero =>
    intro period power k l hinv hb hp1
    left
    rfl
  | succ f ih =>
    intro period power k l hinv hb hp1
    rw [periodLoop_succ]
    by_cases hpw1 : power = 1
    · rw [if_pos hpw1]
      subst hpw1
      right
      have hPw : period ≤ w := by omega
      have h2p : 2 ^ period ≤ 2 ^ w := Nat.pow_le_pow_right (by norm_num) hPw
      have hl0 : l = 0 := by
        by_contra hl
        have h1 : 2 ^ w * 1 ≤ 2 ^ w * l := Nat.mul_le_mul_left _ (by omega)
        omega
      subst hl0
      exact ⟨k, by omega, le_refl _, by omega⟩
    · rw [if_neg hpw1]
      have hdm := Nat.div_add_mod (power * 2) (2 ^ w)
      have hpow : 2 ^ (period + 1) = 2 * 2 ^ period := by
        rw [pow_succ]
        ring
      by_cases hsub : g ≤ power * 2 % 2 ^ w
      · rw [if_pos hsub]
        have hinv2 : (power * 2 % 2 ^ w - g) + g * (2 * k + 1)
            + 2 ^ w * (2 * l + power * 2 / 2 ^ w) = 2 ^ (period + 1) := by
          have hb1 : g * (2 * k + 1) = 2 * (g * k) + g := by ring
          have hb2 : 2 ^ w * (2 * l + power * 2 / 2 ^ w)
              = 2 * (2 ^ w * l) + 2 ^ w * (power * 2 / 2 ^ w) := by ring
          omega
        rcases ih (period + 1) (power * 2 % 2 ^ w - g) (2 * k + 1)
          (2 * l + power * 2 / 2 ^ w) hinv2 (by omega) (by omega) with h0 | ⟨k2, h1, h2, h3⟩
        · exact Or.inl h0
        · exact Or.inr ⟨k2, h1, by omega, by omega⟩
      · rw [if_neg hsub]
        have hinv2 : (power * 2 % 2 ^ w) + g * (2 * k)
            + 2 ^ w * (2 * l + power * 2 / 2 ^ w) = 2 ^ (period + 1) := by
          have hb1 : g * (2 * k) = 2 * (g * k) := by ring
          have hb2 : 2 ^ w * (2 * l + power * 2 / 2 ^ w)
              = 2 * (2 ^ w * l) + 2 ^ w * (power * 2 / 2 ^ w) := by ring
          omega
        rcases ih (period + 1) (power * 2 % 2 ^ w) (2 * k)
          (2 * l + power * 2 / 2 ^ w) hinv2 (by omega) (by omega) with h0 | ⟨k2, h1, h2, h3⟩
        · exact Or.inl h0
        · exact Or.inr ⟨k2, h1, by omega, by omega⟩

theorem findPeriod_spec (w c g : Nat) (hw : 1 ≤ w) (hgodd : g % 2 = 1)
    (hdw : 2 ^ c * g < 2 ^ w) (hP : new_algo.findPeriod w (2 ^ c * g) ≠ 0) :
    ∃ k, 1 + g * k = 2 ^ (new_algo.findPeriod w (2 ^ c * g))
      ∧ 1 ≤ new_algo.findPeriod w (2 ^ c * g)
      ∧ new_algo.findPeriod w (2 ^ c * g) ≤ w - c := by
  have hg1 : 1 ≤ g := by omega
  have hfp : new_algo.findPeriod w (2 ^ c * g)
      = new_algo.periodLoop w g (w - c) 1 (2 % 2 ^ w) := by
    unfold new_algo.findPeriod
    rw [odd_part_factor w c g hgodd hdw, exp2_factor w c g hgodd hdw]
  have hinv : (2 % 2 ^ w) + g * 0 + 2 ^ w * (2 / 2 ^ w) = 2 ^ 1 := by
    have hdm := Nat.div_add_mod 2 (2 ^ w)
    omega
  rcases periodLoop_spec w g (w - c) 1 (2 % 2 ^ w) 0 (2 / 2 ^ w) hinv
      (by omega) (by omega) with h0 | ⟨k2, h1, h2, h3⟩
  · rw [hfp] at hP
    exact absurd h0 hP
  · rw [hfp]
    exact ⟨k2, h1, h2, by omega⟩

end QM
namespace QM

theorem umax_mul_pow (w s : Nat) (hs : s < w) :
    umax w * 2 ^ s % 2 ^ w = 2 ^ w - 2 ^ s := by
  have hW := Nat.two_pow_pos w
  have hS := Nat.two_pow_pos s
  have hlt : 2 ^ s < 2 ^ w := Nat.pow_lt_pow_right (by norm_num) hs
  have humax : umax w = 2 ^ w - 1 := rfl
  have h1 : (2 ^ w - 1) * 2 ^ s + 2 ^ s = 2 ^ w * 2 ^ s := by
    rw [← Nat.succ_mul]
    congr 1
    omega
  have h2 : 2 ^ w * (2 ^ s - 1) + 2 ^ w = 2 ^ w * 2 ^ s := by
    rw [← Nat.mul_succ]
    congr 1
    omega
  have h3 : (2 ^ w - 1) * 2 ^ s = 2 ^ w * (2 ^ s - 1) + (2 ^ w - 2 ^ s) := by omega
  rw [humax, h3, Nat.mul_add_mod]
  exact Nat.mod_eq_of_lt (by omega)

theorem new_create_mult_zero (w d : Nat) (hfp : new_algo.findPeriod w d = 0) :
    (new_algo.create w d).multiplier = 0 := by
  simp only [new_algo.create]
  rw [if_pos hfp]

theorem new_create_char (w d : Nat) (hw : 3 ≤ w) (hd : 0 < d) (hdw : d < 2 ^ w)
    (hm0 : (new_algo.create w d).multiplier ≠ 0) :
    2 ≤ d ∧ (new_algo.create w d).shift < w
    ∧ (new_algo.create w d).multiplier * d = 2 ^ w - 2 ^ (new_algo.create w d).shift
    ∧ 1 ≤ (new_algo.create w d).multiplier
    ∧ (∀ n, n ≤ (new_algo.create w d).max_dividend → n < 2 ^ w ∧
        2 ^ (new_algo.create w d).shift * (n / d)
          ≤ 2 ^ w * (((new_algo.create w d).multiplier - 1)
              / 2 ^ (new_algo.create w d).shift)) := by
  have hW := Nat.two_pow_pos w
  by_cases hfp : new_algo.findPeriod w d = 0
  · exact absurd (new_create_mult_zero w d hfp) hm0
  obtain ⟨c, g, hgodd, hfac⟩ := exists_odd_factorization d hd
  subst hfac
  have hg1 : 1 ≤ g := by omega
  have hcw : c < w := by
    have h1 : 2 ^ c ≤ 2 ^ c * g := Nat.le_mul_of_pos_right _ (by omega)
    have h2 : 2 ^ c < 2 ^ w := by omega
    exact (Nat.pow_lt_pow_iff_right (by norm_num)).mp h2
  have hg3 : 3 ≤ g := by
    rcases Nat.lt_or_ge g 3 with hg | hg
    · have hgone : g = 1 := by omega
      rw [hgone, Nat.mul_one] at hfp
      exact absurd (findPeriod_two_pow w c hw hcw) hfp
    · exact hg
  have hd2 : 2 ≤ 2 ^ c * g := by
    have h1 : 1 * 3 ≤ 2 ^ c * g := Nat.mul_le_mul (Nat.one_le_two_pow) hg3
    omega
  obtain ⟨k, hk, hP1, hPwc⟩ := findPeriod_spec w c g (by omega) hgodd hdw hfp
  obtain ⟨P, hPdef⟩ : ∃ P, new_algo.findPeriod w (2 ^ c * g) = P := ⟨_, rfl⟩
  rw [hPdef] at hk hP1 hPwc
  obtain ⟨no, hnodef⟩ : ∃ no, (w - c) / P * P = no := ⟨_, rfl⟩
  have hnoP : P ≤ no := by
    have h1 : 1 ≤ (w - c) / P := (Nat.one_le_div_iff (by omega)).mpr hPwc
    have h2 : 1 * P ≤ (w - c) / P * P := Nat.mul_le_mul_right P h1
    omega
  have hnowc : no ≤ w - c := by
    rw [← hnodef]
    exact Nat.div_mul_le_self _ _
  obtain ⟨s, hsdef⟩ : ∃ s, w - no = s := ⟨_, rfl⟩
  have hsc : c ≤ s := by omega
  have hsw : s < w := by omega
  have hps : 2 ^ s * 2 ^ no = 2 ^ w := by
    rw [← pow_add]
    congr 1
    omega
  have hno1 : 1 ≤ 2 ^ no := Nat.one_le_two_pow
  -- divisibility of 2^w - 2^s by the divisor
  have hg2P : g ∣ 2 ^ P - 1 := ⟨k, by omega⟩
  have hgno : g ∣ 2 ^ no - 1 := by
    have hnom : no = P * ((w - c) / P) := by
      rw [← hnodef]
      ring
    have h1 : (2 ^ P - 1) ∣ ((2 ^ P) ^ ((w - c) / P) - 1) := by
      have h2 := nat_sub_dvd_pow_sub_pow (2 ^ P) 1 ((w - c) / P)
      rw [one_pow] at h2
      exact h2
    have h3 : 2 ^ no = (2 ^ P) ^ ((w - c) / P) := by
      rw [hnom, pow_mul]
    rw [h3]
    exact dvd_trans hg2P h1
  have hdvd : (2 ^ c * g) ∣ (2 ^ w - 2 ^ s) := by
    have h1 : 2 ^ s * (2 ^ no - 1) + 2 ^ s * 1 = 2 ^ s * 2 ^ no := by
      rw [← Nat.mul_add]
      congr 1
      omega
    have h2 : 2 ^ w - 2 ^ s = 2 ^ s * (2 ^ no - 1) := by omega
    rw [h2]
    exact mul_dvd_mul (pow_dvd_pow 2 hsc) hgno
  -- the created fields
  have hshift : (new_algo.create w (2 ^ c * g)).shift = s := by
    simp only [new_algo.create]
    rw [if_neg hfp]
    show w - (w - exp2 w (2 ^ c * g)) / new_algo.findPeriod w (2 ^ c * g)
        * new_algo.findPeriod w (2 ^ c * g) = s
    rw [exp2_factor w c g hgodd hdw, hPdef, hnodef, hsdef]
  have hmult : (new_algo.create w (2 ^ c * g)).multiplier
      = (2 ^ w - 2 ^ s) / (2 ^ c * g) := by
    simp only [new_algo.create]
    rw [if_neg hfp]
    show umax w * 2 ^ (w - (w - exp2 w (2 ^ c * g)) / new_algo.findPeriod w (2 ^ c * g)
        * new_algo.findPeriod w (2 ^ c * g)) % 2 ^ w / (2 ^ c * g)
      = (2 ^ w - 2 ^ s) / (2 ^ c * g)
    rw [exp2_factor w c g hgodd hdw, hPdef, hnodef, hsdef, umax_mul_pow w s hsw]
  have hMd : (new_algo.create w (2 ^ c * g)).multiplier * (2 ^ c * g)
      = 2 ^ w - 2 ^ s := by
    rw [hmult]
    exact Nat.div_mul_cancel hdvd
  have hM1 : 1 ≤ (new_algo.create w (2 ^ c * g)).multiplier :=
    Nat.pos_of_ne_zero hm0
  refine ⟨hd2, by omega, by rw [hshift]; exact hMd, hM1, ?_⟩
  -- the max_dividend bound
  intro n hn
  rw [hshift]
  obtain ⟨M, hMdef⟩ : ∃ M, (new_algo.create w (2 ^ c * g)).multiplier = M := ⟨_, rfl⟩
  rw [hMdef] at hMd hM1 hmult
  obtain ⟨N, hNdef⟩ : ∃ N, (M - 1) / 2 ^ s = N := ⟨_, rfl⟩
  rw [hMdef, hNdef]
  have hmaxd : (new_algo.create w (2 ^ c * g)).max_dividend
      = (if 2 ^ s ≤ N then umax w
         else
           if umax w / (2 ^ c * g) < N * (2 ^ no % 2 ^ w) % 2 ^ w then umax w
           else
             if tneg w (2 ^ c * g)
                 < N * (2 ^ no % 2 ^ w) % 2 ^ w * (2 ^ c * g) % 2 ^ w then umax w
             else N * (2 ^ no % 2 ^ w) % 2 ^ w * (2 ^ c * g) % 2 ^ w
               + (2 ^ c * g) - 1) := by
    simp only [new_algo.create]
    rw [if_neg hfp]
    show (if 2 ^ (w - (w - exp2 w (2 ^ c * g)) / new_algo.findPeriod w (2 ^ c * g)
            * new_algo.findPeriod w (2 ^ c * g))
          ≤ (umax w * 2 ^ (w - (w - exp2 w (2 ^ c * g))
                / new_algo.findPeriod w (2 ^ c * g)
                * new_algo.findPeriod w (2 ^ c * g)) % 2 ^ w / (2 ^ c * g) - 1)
            / 2 ^ (w - (w - exp2 w (2 ^ c * g)) / new_algo.findPeriod w (2 ^ c * g)
                * new_algo.findPeriod w (2 ^ c * g))
          then umax w
          else _) = _
    rw [exp2_factor w c g hgodd hdw, hPdef, hnodef, hsdef, umax_mul_pow w s hsw,
      ← hmult, hNdef]
  rw [hmaxd] at hn
  have humax : umax w = 2 ^ w - 1 := rfl
  have hsposw : 2 ^ s < 2 ^ w := Nat.pow_lt_pow_right (by norm_num) hsw
  have hS := Nat.two_pow_pos s
  have hsA : ∀ A, n / (2 ^ c * g) ≤ A → 2 ^ s * (n / (2 ^ c * g)) ≤ 2 ^ w * N
      → True := fun _ _ _ => trivial
  by_cases hb1 : 2 ^ s ≤ N
  · rw [if_pos hb1] at hn
    have hnw : n < 2 ^ w := by omega
    refine ⟨hnw, ?_⟩
    have h1 : n / (2 ^ c * g) ≤ n := Nat.div_le_self _ _
    have h2 : 2 ^ s * (n / (2 ^ c * g)) ≤ 2 ^ s * n := Nat.mul_le_mul_left _ h1
    have h3 : 2 ^ s * n ≤ 2 ^ s * (2 ^ w - 1) := Nat.mul_le_mul_left _ (by omega)
    have h4 : 2 ^ s * (2 ^ w - 1) + 2 ^ s = 2 ^ s * 2 ^ w := by
      rw [← Nat.mul_succ]
      congr 1
      omega
    have h5 : 2 ^ s * 2 ^ w = 2 ^ w * 2 ^ s := Nat.mul_comm _ _
    have h6 : 2 ^ w * 2 ^ s ≤ 2 ^ w * N := Nat.mul_le_mul_left _ hb1
    omega
  · rw [if_neg hb1] at hn
    have hNs : N < 2 ^ s := by omega
    have hn1 : N * (2 ^ no % 2 ^ w) % 2 ^ w = N * 2 ^ no := by
      rcases Nat.lt_or_ge no w with hnow | hnow
      · have h1 : 2 ^ no < 2 ^ w := Nat.pow_lt_pow_right (by norm_num) hnow
        rw [Nat.mod_eq_of_lt h1]
        apply Nat.mod_eq_of_lt
        have h2 : N * 2 ^ no < 2 ^ s * 2 ^ no :=
          (Nat.mul_lt_mul_right (Nat.two_pow_pos no)).mpr hNs
        omega
      · have hnoww : no = w := by omega
        have hs0 : s = 0 := by omega
        have hN0 : N = 0 := by
          rw [hs0] at hNs
          simpa using hNs
        rw [hN0]
        simp
    rw [hn1] at hn
    -- in every remaining branch:  n / d ≤ N * 2^no  gives the bound
    have hconc : n < 2 ^ w → n / (2 ^ c * g) ≤ N * 2 ^ no →
        n < 2 ^ w ∧ 2 ^ s * (n / (2 ^ c * g)) ≤ 2 ^ w * N := by
      intro h1 h2
      refine ⟨h1, ?_⟩
      have h3 : 2 ^ s * (n / (2 ^ c * g)) ≤ 2 ^ s * (N * 2 ^ no) :=
        Nat.mul_le_mul_left _ h2
      have h4 : 2 ^ s * (N * 2 ^ no) = 2 ^ w * N := by
        rw [← hps]
        ring
      omega
    by_cases hb2 : umax w / (2 ^ c * g) < N * 2 ^ no
    · rw [if_pos hb2] at hn
      apply hconc (by omega)
      have h1 : n / (2 ^ c * g) ≤ umax w / (2 ^ c * g) :=
        Nat.div_le_div_right (by omega)
      omega
    · rw [if_neg hb2] at hn
      have hb2a : N * 2 ^ no ≤ umax w / (2 ^ c * g) := Nat.le_of_not_lt hb2
      have hn2 : N * 2 ^ no * (2 ^ c * g) ≤ umax w :=
        (Nat.le_div_iff_mul_le (by omega : 0 < 2 ^ c * g)).mp hb2a
      have hn2e : N * 2 ^ no * (2 ^ c * g) % 2 ^ w = N * 2 ^ no * (2 ^ c * g) :=
        Nat.mod_eq_of_lt (by omega)
      rw [hn2e] at hn
      have htneg : tneg w (2 ^ c * g) = 2 ^ w - 2 ^ c * g := by
        unfold tneg
        exact Nat.mod_eq_of_lt (by omega)
      have hA2 : (N * 2 ^ no + 1) * (2 ^ c * g)
          = N * 2 ^ no * (2 ^ c * g) + 2 ^ c * g := by ring
      by_cases hb3 : tneg w (2 ^ c * g) < N * 2 ^ no * (2 ^ c * g)
      · rw [if_pos hb3] at hn
        rw [htneg] at hb3
        apply hconc (by omega)
        have h1 : n < (N * 2 ^ no + 1) * (2 ^ c * g) := by omega
        have h2 : n / (2 ^ c * g) < N * 2 ^ no + 1 := by
          rw [Nat.div_lt_iff_lt_mul (by omega : 0 < 2 ^ c * g)]
          omega
        omega
      · rw [if_neg hb3] at hn
        rw [htneg] at hb3
        apply hconc (by omega)
        have h1 : n < (N * 2 ^ no + 1) * (2 ^ c * g) := by omega
        have h2 : n / (2 ^ c * g) < N * 2 ^ no + 1 := by
          rw [Nat.div_lt_iff_lt_mul (by omega : 0 < 2 ^ c * g)]
          omega
        omega

end QM
namespace QM

theorem new_kernel_less (w s M d : Nat) (D : new_algo.Divisor)
    (hDm : D.multiplier = M) (hDs : D.shift = s)
    (hd : 1 ≤ d) (hsw : s < w) (hM1 : 1 ≤ M) (hMd : M * d = 2 ^ w - 2 ^ s)
    (n r : Nat) (hr : r < d) (hn : n < 2 ^ w)
    (hq : 2 ^ s * (n / d) ≤ 2 ^ w * ((M - 1) / 2 ^ s)) :
    new_algo.has_remainder_less w D n r = decide (n % d < r) := by
  have hW := Nat.two_pow_pos w
  have hS := Nat.two_pow_pos s
  have hss : 2 ^ s < 2 ^ w := Nat.pow_lt_pow_right (by norm_num) hsw
  obtain ⟨q, t, htd, rfl⟩ : ∃ q t, t < d ∧ n = d * q + t :=
    ⟨n / d, n % d, Nat.mod_lt _ (by omega), (Nat.div_add_mod n d).symm⟩
  have hqd : (d * q + t) / d = q := by
    rw [Nat.mul_add_div (by omega : 0 < d), Nat.div_eq_of_lt htd]
    omega
  rw [hqd] at hq
  have hnd : (d * q + t) % d = t := by
    rw [Nat.mul_add_mod]
    exact Nat.mod_eq_of_lt htd
  have hMd1 : M * (d - 1) + M = M * d := by
    have h : M * (d - 1 + 1) = M * (d - 1) + M := by ring
    rw [show d - 1 + 1 = d by omega] at h
    omega
  have hMt : M * t ≤ M * (d - 1) := Nat.mul_le_mul_left M (by omega)
  have hMr : M * r ≤ M * (d - 1) := Nat.mul_le_mul_left M (by omega)
  obtain ⟨N, hNdef⟩ : ∃ N, (M - 1) / 2 ^ s = N := ⟨_, rfl⟩
  rw [hNdef] at hq
  have hsN : 2 ^ s * N ≤ M - 1 := by
    have h1 : N * 2 ^ s ≤ M - 1 := by
      rw [← hNdef]
      exact Nat.div_mul_le_self _ _
    have h2 : N * 2 ^ s = 2 ^ s * N := Nat.mul_comm _ _
    omega
  have hP : M * (d * q + t) = (2 ^ w - 2 ^ s) * q + M * t := by
    rw [← hMd]
    ring
  have hb0 : (2 ^ w - 2 ^ s) * q + 2 ^ s * q = 2 ^ w * q := by
    rw [← Nat.add_mul]
    congr 1
    omega
  obtain ⟨hi, hidef⟩ : ∃ hi, M * (d * q + t) / 2 ^ w = hi := ⟨_, rfl⟩
  obtain ⟨lo, hlodef⟩ : ∃ lo, M * (d * q + t) % 2 ^ w = lo := ⟨_, rfl⟩
  have hdm : 2 ^ w * hi + lo = M * (d * q + t) := by
    rw [← hidef, ← hlodef]
    exact Nat.div_add_mod _ _
  have hlo : lo < 2 ^ w := by
    rw [← hlodef]
    exact Nat.mod_lt _ (by omega)
  have hhi_le : hi ≤ q := by
    by_contra hh
    have hgt : q + 1 ≤ hi := by omega
    have h1 : 2 ^ w * (q + 1) ≤ 2 ^ w * hi := Nat.mul_le_mul_left _ hgt
    have h2 : 2 ^ w * (q + 1) = 2 ^ w * q + 2 ^ w := by ring
    omega
  have hjN : q - hi ≤ N := by
    rcases Nat.lt_or_ge N q with hqN | hqN
    · have hqNs : q - N ≤ hi := by
        rw [← hidef]
        rw [Nat.le_div_iff_mul_le (by omega : 0 < 2 ^ w)]
        have h1 : (q - N) * 2 ^ w + N * 2 ^ w = q * 2 ^ w := by
          rw [← Nat.add_mul]
          congr 1
          omega
        have h2 : q * 2 ^ w = 2 ^ w * q := Nat.mul_comm _ _
        have h3 : N * 2 ^ w = 2 ^ w * N := Nat.mul_comm _ _
        omega
      omega
    · omega
  have hbs : 2 ^ s * (q - hi) + 2 ^ s * hi = 2 ^ s * q := by
    rw [← Nat.mul_add]
    congr 1
    omega
  have hbw : 2 ^ w * (q - hi) + 2 ^ w * hi = 2 ^ w * q := by
    rw [← Nat.mul_add]
    congr 1
    omega
  have hsj : 2 ^ s * (q - hi) ≤ 2 ^ s * N := Nat.mul_le_mul_left _ hjN
  unfold new_algo.has_remainder_less new_algo.fractional tadd tmul
  rw [hDm, hDs, hidef, hlodef, Nat.mod_add_mod]
  have hcomm : hi * 2 ^ s = 2 ^ s * hi := Nat.mul_comm _ _
  have hA : lo + hi * 2 ^ s + M
      = 2 ^ w * (q - hi) + (M * t + M - 2 ^ s * (q - hi)) := by omega
  have hA2 : M * t + M - 2 ^ s * (q - hi) < 2 ^ w := by omega
  rw [hA, Nat.mul_add_mod, Nat.mod_eq_of_lt hA2,
    Nat.mod_eq_of_lt (by omega : M * r < 2 ^ w), hnd]
  rcases Nat.lt_or_ge t r with htr | htr
  · have h1 : M * (t + 1) ≤ M * r := Nat.mul_le_mul_left M (by omega)
    have h2 : M * (t + 1) = M * t + M := by ring
    rw [decide_eq_true (by omega : M * t + M - 2 ^ s * (q - hi) ≤ M * r),
      decide_eq_true htr]
  · have h1 : M * r ≤ M * t := Nat.mul_le_mul_left M htr
    rw [decide_eq_false (by omega : ¬ M * t + M - 2 ^ s * (q - hi) ≤ M * r),
      decide_eq_false (by omega : ¬ t < r)]

theorem new_ops_correct (w d n r : Nat) (hw : 3 ≤ w) (hd : 0 < d) (hdw : d < 2 ^ w)
    (hm0 : (new_algo.create w d).multiplier ≠ 0)
    (hn : n ≤ (new_algo.create w d).max_dividend)
    (hr : r ≤ new_algo.plain_max_remainder w d) :
    new_algo.plain_has_remainder w d n r = built_in.has_remainder d n r
    ∧ new_algo.plain_has_remainder_less w d n r = built_in.has_remainder_less d n r
    ∧ new_algo.plain_has_remainder_greater_equal w d n r
        = built_in.has_remainder_greater_equal d n r
    ∧ (r ≠ umax w →
        new_algo.plain_has_remainder_less_equal w d n r
            = built_in.has_remainder_less_equal d n r
        ∧ new_algo.plain_has_remainder_greater w d n r
            = built_in.has_remainder_greater d n r) := by
  have hW := Nat.two_pow_pos w
  obtain ⟨hd2, hsw, hMd, hM1, hdomain⟩ := new_create_char w d hw hd hdw hm0
  obtain ⟨hnw, hq⟩ := hdomain n hn
  have hmr : new_algo.plain_max_remainder w d = (new_algo.create w d).max_dividend := rfl
  rw [hmr] at hr
  obtain ⟨hrw, _⟩ := hdomain r hr
  have hkern : ∀ m y, m < 2 ^ w →
      2 ^ (new_algo.create w d).shift * (m / d)
        ≤ 2 ^ w * (((new_algo.create w d).multiplier - 1)
            / 2 ^ (new_algo.create w d).shift) →
      y < d →
      new_algo.has_remainder_less w (new_algo.create w d) m y = decide (m % d < y) :=
    fun m y hm hmq hy =>
      new_kernel_less w (new_algo.create w d).shift (new_algo.create w d).multiplier d
        (new_algo.create w d) rfl rfl (by omega) hsw hM1 hMd m y hy hm hmq
  have hless : ∀ y, new_algo.plain_has_remainder_less w d n y = decide (n % d < y) := by
    intro y
    unfold new_algo.plain_has_remainder_less adaptors.relax_lt
    by_cases hyd : d ≤ y
    · rw [decide_eq_true hyd]
      simp only [Bool.true_or]
      exact (decide_eq_true (by
        have := Nat.mod_lt n (by omega : 0 < d)
        omega : n % d < y)).symm
    · rw [decide_eq_false hyd]
      simp only [Bool.false_or]
      exact hkern n y hnw hq (by omega)
  refine ⟨?_, ?_, ?_, ?_⟩
  · unfold new_algo.plain_has_remainder adaptors.relax_eq new_algo.has_remainder
      built_in.has_remainder
    by_cases hrd : r < d
    · rw [decide_eq_true hrd]
      simp only [Bool.true_and]
      by_cases hrn : r ≤ n
      · rw [decide_eq_true hrn]
        simp only [Bool.true_and]
        have htsub : tsub w n r = n - r := by
          unfold tsub
          have h1 : n + (2 ^ w - r) = (n - r) + 2 ^ w := by omega
          rw [h1, Nat.add_mod_right]
          exact Nat.mod_eq_of_lt (by omega)
        have hq2 : 2 ^ (new_algo.create w d).shift * ((n - r) / d)
            ≤ 2 ^ w * (((new_algo.create w d).multiplier - 1)
                / 2 ^ (new_algo.create w d).shift) := by
          have h1 : (n - r) / d ≤ n / d := Nat.div_le_div_right (Nat.sub_le n r)
          have h2 : 2 ^ (new_algo.create w d).shift * ((n - r) / d)
              ≤ 2 ^ (new_algo.create w d).shift * (n / d) :=
            Nat.mul_le_mul_left _ h1
          omega
        rw [htsub, hkern (n - r) 1 (by omega) hq2 (by omega)]
        have hiff : ((n - r) % d < 1) ↔ (n % d = r) := by
          constructor
          · intro h
            have hdm := Nat.div_add_mod (n - r) d
            have hn_eq : n = d * ((n - r) / d) + r := by omega
            rw [hn_eq, Nat.mul_add_mod]
            exact Nat.mod_eq_of_lt (by omega)
          · intro h
            have hdm := Nat.div_add_mod n d
            have hsub : n - r = d * (n / d) := by omega
            rw [hsub, Nat.mul_mod_right]
            omega
        exact decide_eq_decide.mpr hiff
      · rw [decide_eq_false hrn]
        simp only [Bool.false_and]
        exact (decide_eq_false (by
          rw [Nat.mod_eq_of_lt (by omega : n < d)]
          omega : ¬ n % d = r)).symm
    · rw [decide_eq_false hrd]
      simp only [Bool.false_and]
      exact (decide_eq_false (by
        have := Nat.mod_lt n (by omega : 0 < d)
        omega : ¬ n % d = r)).symm
  · rw [hless r]
    rfl
  · unfold new_algo.plain_has_remainder_greater_equal adaptors.extra_ge
      built_in.has_remainder_greater_equal
    rw [hless r, ← decide_not]
    exact decide_eq_decide.mpr (by omega)
  · intro hru
    have humax : umax w = 2 ^ w - 1 := rfl
    rw [humax] at hru
    have hr1 : r + 1 < 2 ^ w := by omega
    constructor
    · unfold new_algo.plain_has_remainder_less_equal adaptors.extra_le
        built_in.has_remainder_less_equal
      rw [Nat.mod_eq_of_lt hr1, hless (r + 1)]
      exact decide_eq_decide.mpr (by omega)
    · unfold new_algo.plain_has_remainder_greater adaptors.extra_gt adaptors.extra_le
        built_in.has_remainder_greater
      rw [Nat.mod_eq_of_lt hr1, hless (r + 1), ← decide_not]
      exact decide_eq_decide.mpr (by omega)

end QM
namespace QM

/-- C1 (amended): at 32 or 64 bits, for every divisor `0 < d < 2^w`, every
dividend `n ≤ max_dividend` and every remainder `r ≤ max_remainder`, the
composed stacks agree with the built-in oracle, except in three degenerate
situations excluded below: (a) multiply-and-compare records with `bound = 0`
answer every equality query `false`; (b) hybrid records with `multiplier = 0`
(period search failed) answer `has_remainder_less` queries incorrectly; and
(c) `has_remainder_less_equal` / `has_remainder_greater` at the maximal
remainder `r = 2^w - 1`, where `r + 1` wraps to `0`.  The modular-inverse
stack (whose only composed operation is the equality test) agrees with the
oracle unconditionally, and the multiply-and-shift stack never reaches the
wrapping remainder because its `max_remainder` is below `2^w - 1`. -/
theorem claim_C1 (w d n r : Nat) (hw : w = 32 ∨ w = 64) (hd : 0 < d)
    (hdw : d < 2 ^ w) :
    ((mcomp.create w d).bound ≠ 0 →
      n ≤ (mcomp.create w d).max_dividend → r ≤ mcomp.plain_max_remainder w d →
      mcomp.plain_has_remainder w d n r = built_in.has_remainder d n r
      ∧ mcomp.plain_has_remainder_less w d n r = built_in.has_remainder_less d n r
      ∧ mcomp.plain_has_remainder_greater_equal w d n r
          = built_in.has_remainder_greater_equal d n r
      ∧ (r ≠ umax w →
          mcomp.plain_has_remainder_less_equal w d n r
              = built_in.has_remainder_less_equal d n r
          ∧ mcomp.plain_has_remainder_greater w d n r
              = built_in.has_remainder_greater d n r))
    ∧ (n ≤ (mshift.create w d).max_dividend → r ≤ mshift.plain_max_remainder w d →
      mshift.plain_has_remainder w d n r = built_in.has_remainder d n r
      ∧ mshift.plain_has_remainder_less w d n r = built_in.has_remainder_less d n r
      ∧ mshift.plain_has_remainder_greater_equal w d n r
          = built_in.has_remainder_greater_equal d n r
      ∧ (r ≠ umax w →
          mshift.plain_has_remainder_less_equal w d n r
              = built_in.has_remainder_less_equal d n r
          ∧ mshift.plain_has_remainder_greater w d n r
              = built_in.has_remainder_greater d n r))
    ∧ (n ≤ umax w → r ≤ minverse.plain_max_remainder w d →
      minverse.plain_has_remainder w d n r = built_in.has_remainder d n r)
    ∧ ((new_algo.create w d).multiplier ≠ 0 →
      n ≤ (new_algo.create w d).max_dividend → r ≤ new_algo.plain_max_remainder w d →
      new_algo.plain_has_remainder w d n r = built_in.has_remainder d n r
      ∧ new_algo.plain_has_remainder_less w d n r = built_in.has_remainder_less d n r
      ∧ new_algo.plain_has_remainder_greater_equal w d n r
          = built_in.has_remainder_greater_equal d n r
      ∧ (r ≠ umax w →
          new_algo.plain_has_remainder_less_equal w d n r
              = built_in.has_remainder_less_equal d n r
          ∧ new_algo.plain_has_remainder_greater w d n r
              = built_in.has_remainder_greater d n r)) := by
  have hw5 : 5 ≤ w := by rcases hw with h | h <;> omega
  have hw80 : w ≤ 80 := by rcases hw with h | h <;> omega
  refine ⟨?_, ?_, ?_, ?_⟩
  · intro hb hn hr
    exact mcomp_ops_correct w d n r hd hdw hb hn hr
  · intro hn hr
    exact mshift_ops_correct w d n r hd hdw hn hr
  · intro hn hr
    exact minverse_ops_correct w d n r hw5 hw80 hd hdw hn hr
  · intro hm0 hn hr
    exact new_ops_correct w d n r (by omega) hd hdw hm0 hn hr

/-- C1 counterexample to the literal claim: at 32 bits, (a) the
multiply-and-compare divisor `2^32 - 1` has `bound = 0` and its equality
test contradicts the oracle at `n = r = 0` inside the advertised domain;
(b) the hybrid divisor `37` has `multiplier = 0` (the period search fails)
and its less-than test contradicts the oracle at `n = r = 0`; (c) for the
multiply-and-compare divisor `2`, `has_remainder_less_equal` contradicts
the oracle at the maximal in-domain remainder `r = 2^32 - 1`. -/
theorem claim_C1_counterexample :
    ((mcomp.create 32 (2 ^ 32 - 1)).bound = 0
      ∧ 0 ≤ (mcomp.create 32 (2 ^ 32 - 1)).max_dividend
      ∧ 0 ≤ mcomp.plain_max_remainder 32 (2 ^ 32 - 1)
      ∧ mcomp.plain_has_remainder 32 (2 ^ 32 - 1) 0 0
          ≠ built_in.has_remainder (2 ^ 32 - 1) 0 0)
    ∧ ((new_algo.create 32 37).multiplier = 0
      ∧ 0 ≤ (new_algo.create 32 37).max_dividend
      ∧ 0 ≤ new_algo.plain_max_remainder 32 37
      ∧ new_algo.plain_has_remainder_less 32 37 0 0
          ≠ built_in.has_remainder_less 37 0 0)
    ∧ (0 ≤ (mcomp.create 32 2).max_dividend
      ∧ 2 ^ 32 - 1 ≤ mcomp.plain_max_remainder 32 2
      ∧ (mcomp.create 32 2).bound ≠ 0
      ∧ mcomp.plain_has_remainder_less_equal 32 2 0 (2 ^ 32 - 1)
          ≠ built_in.has_remainder_less_equal 2 0 (2 ^ 32 - 1)) := by
  refine ⟨⟨?_, ?_, ?_, ?_⟩, ⟨?_, ?_, ?_, ?_⟩, ⟨?_, ?_, ?_, ?_⟩⟩ <;> decide

/-- Witness for C1 at `w = 32`, `d = 7`, `n = 20`, `r = 5`. -/
theorem claim_C1_witness :
    (0 < 7 ∧ 7 < 2 ^ 32)
    ∧ mcomp.plain_has_remainder 32 7 20 5 = built_in.has_remainder 7 20 5
    ∧ mshift.plain_has_remainder_less 32 7 20 5 = built_in.has_remainder_less 7 20 5
    ∧ minverse.plain_has_remainder 32 7 20 5 = built_in.has_remainder 7 20 5
    ∧ new_algo.plain_has_remainder_less_equal 32 7 20 5
        = built_in.has_remainder_less_equal 7 20 5 :=
  ⟨⟨by decide, by decide⟩,
    ((claim_C1 32 7 20 5 (Or.inl rfl) (by decide) (by decide)).1 (by decide) (by decide)
      (by decide)).1,
    ((claim_C1 32 7 20 5 (Or.inl rfl) (by decide) (by decide)).2.1 (by decide)
      (by decide)).2.1,
    (claim_C1 32 7 20 5 (Or.inl rfl) (by decide) (by decide)).2.2.1 (by decide) (by decide),
    (((claim_C1 32 7 20 5 (Or.inl rfl) (by decide) (by decide)).2.2.2 (by decide) (by decide)
      (by decide)).2.2.2 (by decide)).1⟩

end QM
